import Mathlib

/-! gokr-update-eeprom: reconciliation of a local firmware directory with a pinned manifest

A shallow embedding of `cmd/gokr-update-eeprom/eeprom.go`.

* Go maps are association lists with distinct keys; the order in which `range`
  visits a map is chosen by the environment.
* The working directory is a list of entries by name: regular files, symbolic
  links and subdirectories. Two names with one inode number are hard links to
  one file. A regular file has the size `Stat` reports and the bytes a read
  delivers, which need not be that many.
* A path is resolved before a file is opened or created: empty and `.`
  components are skipped, symbolic links are followed, and a path that leaves
  the working directory leads where the environment says.
* Every call that can fail in the source (open and read, HTTP transport,
  create, copy, close, remove) has its outcome chosen by the environment.
* Hashing is written twice: as the Go library does it (`fmt`, the streaming
  `crypto/sha1` digest, `io.Copy`), and as the standard notation has it
  (SHA-1 of the whole message); the two are proved equal.
* The tasks of a group run one after the other in the order they were started.
* `log.Fatal` ends the run: the outcome records the error and the directory as
  it was at that point.
-/

namespace Eeprom

set_option maxRecDepth 100000

/-! ## Bytes, hexadecimal and decimal notation -/

abbrev Bytes := List UInt8

/-- One lowercase hexadecimal digit. -/
def hexDigit (n : Nat) : Char :=
  if n < 10 then Char.ofNat (48 + n) else Char.ofNat (87 + n)

/-- The lowercase hexadecimal notation of a byte string, two digits per byte. -/
def hexString (b : Bytes) : String :=
  String.mk (b.flatMap fun x => [hexDigit (x.toNat / 16), hexDigit (x.toNat % 16)])

/-- The bytes of the decimal notation of a number. -/
def decimalBytes (n : Nat) : Bytes :=
  (Nat.toDigits 10 n).map fun c => UInt8.ofNat c.toNat

/-! ## SHA-1 as the standard defines it (RFC 3174, method 1), on 32-bit words kept as natural numbers -/

def w32 : Nat := 4294967296

def w64 : Nat := 18446744073709551616

/-- Rotate a 32-bit word to the left. -/
def rotl (k x : Nat) : Nat :=
  ((x <<< k) % w32) ||| (x >>> (32 - k))

/-- The chaining value of SHA-1. -/
structure Sha1State where
  h0 : Nat
  h1 : Nat
  h2 : Nat
  h3 : Nat
  h4 : Nat
deriving DecidableEq, Repr

def sha1Init : Sha1State :=
  ⟨0x67452301, 0xEFCDAB89, 0x98BADCFE, 0x10325476, 0xC3D2E1F0⟩

/-- A big-endian 32-bit word from four bytes. -/
def be32 (b0 b1 b2 b3 : UInt8) : Nat :=
  b0.toNat * 16777216 + b1.toNat * 65536 + b2.toNat * 256 + b3.toNat

/-- The sixteen message words of a 64-byte block. -/
def blockWords : Bytes → List Nat
  | b0 :: b1 :: b2 :: b3 :: rest => be32 b0 b1 b2 b3 :: blockWords rest
  | _ => []

/-- Extend the message schedule: `n` further words, each from the last sixteen.
The list holds the schedule newest word first. -/
def extendSchedule : Nat → List Nat → List Nat
  | 0, w => w
  | n + 1, w =>
    let v := rotl 1 (w.getD 2 0 ^^^ w.getD 7 0 ^^^ w.getD 13 0 ^^^ w.getD 15 0)
    extendSchedule n (v :: w)

/-- The eighty-word message schedule of a block, oldest word first. -/
def schedule (block : Bytes) : List Nat :=
  (extendSchedule 64 (blockWords block).reverse).reverse

/-- The round function and constant for round `t`. -/
def roundFK (t b c d : Nat) : Nat × Nat :=
  if t < 20 then ((b &&& c) ||| ((b ^^^ 0xFFFFFFFF) &&& d), 0x5A827999)
  else if t < 40 then (b ^^^ c ^^^ d, 0x6ED9EBA1)
  else if t < 60 then ((b &&& c) ||| (b &&& d) ||| (c &&& d), 0x8F1BBCDC)
  else (b ^^^ c ^^^ d, 0xCA62C1D6)

/-- Run the rounds over the schedule words, starting at round `t`. -/
def rounds : List Nat → Nat → Sha1State → Sha1State
  | [], _, s => s
  | w :: ws, t, s =>
    let fk := roundFK t s.h1 s.h2 s.h3
    let tmp := (rotl 5 s.h0 + fk.1 + s.h4 + w + fk.2) % w32
    rounds ws (t + 1) ⟨tmp, s.h0, rotl 30 s.h1, s.h2, s.h3⟩

/-- Process one 64-byte block. -/
def sha1Block (s : Sha1State) (block : Bytes) : Sha1State :=
  let r := rounds (schedule block) 0 s
  ⟨(s.h0 + r.h0) % w32, (s.h1 + r.h1) % w32, (s.h2 + r.h2) % w32,
   (s.h3 + r.h3) % w32, (s.h4 + r.h4) % w32⟩

/-- The first `n` 64-byte blocks of a message. -/
def blocks64 : Nat → Bytes → List Bytes
  | 0, _ => []
  | n + 1, msg => msg.take 64 :: blocks64 n (msg.drop 64)

/-- The big-endian bytes of a number, `k` of them. -/
def beBytes : Nat → Nat → Bytes
  | 0, _ => []
  | k + 1, x => UInt8.ofNat ((x >>> (8 * k)) % 256) :: beBytes k x

/-- The padding of SHA-1: a one bit, zeros up to 56 mod 64, and the bit length on 8 bytes. -/
def sha1Pad (msg : Bytes) : Bytes :=
  let zeros := (119 - msg.length % 64) % 64
  msg ++ [0x80] ++ List.replicate zeros 0 ++ beBytes 8 ((8 * msg.length) % w64)

/-- The twenty bytes of a chaining value. -/
def stateBytes (s : Sha1State) : Bytes :=
  beBytes 4 s.h0 ++ beBytes 4 s.h1 ++ beBytes 4 s.h2 ++ beBytes 4 s.h3 ++ beBytes 4 s.h4

/-- The 20-byte SHA-1 digest of a message: pad, cut into blocks, process them in order. -/
def sha1Sum (msg : Bytes) : Bytes :=
  let p := sha1Pad msg
  stateBytes ((blocks64 (p.length / 64) p).foldl sha1Block sha1Init)

/-- The content hash as the specification words it: SHA-1 over `blob`, a
space, the decimal declared length, a NUL byte, then the bytes, in lowercase
hexadecimal. -/
def blobHash (size : Nat) (b : Bytes) : String :=
  hexString (sha1Sum (([98, 108, 111, 98, 32] ++ decimalBytes size ++ [0]) ++ b))

/-- The git blob hash of a byte string: the content hash with the length of the bytes. -/
def gitBlobHash (b : Bytes) : String := blobHash b.length b

/-! ## The Go library as the hashing task uses it -/

/-- Go `fmt` for the verb `%d` on a non-negative integer: the loop of
`fmtInteger`, which fills the buffer from its end. -/
def fmtInteger : Nat → Nat → Bytes → Bytes
  | 0, _, buf => buf
  | fuel + 1, u, buf =>
    if u ≥ 10 then
      let next := u / 10
      fmtInteger fuel next (UInt8.ofNat (48 + (u - next * 10)) :: buf)
    else UInt8.ofNat (48 + u) :: buf

/-- The digits Go `fmt` prints for the verb `%x`. -/
def ldigits : List Char := "0123456789abcdefx".data

/-- Go `fmt.Sprintf("%x", b)` for a byte slice: the loop of `fmtSbx`. -/
def fmtSbx (b : Bytes) : String :=
  String.mk (b.flatMap fun c => [ldigits.getD (c.toNat >>> 4) 'x', ldigits.getD (c.toNat &&& 15) 'x'])

/-- The block size of `crypto/sha1`. -/
def chunk : Nat := 64

/-- Go `crypto/sha1` `block`: the loop that runs while a whole chunk is left. -/
def block : Nat → Sha1State → Bytes → Sha1State
  | 0, h, _ => h
  | n + 1, h, p =>
    if p.length ≥ chunk then block n (sha1Block h (p.take chunk)) (p.drop chunk) else h

/-- Go `crypto/sha1` `digest`: chaining value, the bytes of the partial block, length written. -/
structure digest where
  h : Sha1State
  x : Bytes
  len : Nat
deriving DecidableEq, Repr

/-- Go `sha1.New`. -/
def sha1New : digest := ⟨sha1Init, [], 0⟩

/-- The end of `digest.Write`: whole chunks of `p` go through `block`, the rest is buffered. -/
def digest.writeRest (h : Sha1State) (x : Bytes) (len : Nat) (p : Bytes) : digest :=
  if p.length ≥ chunk then
    let n := p.length / chunk * chunk
    let h := block (p.take n).length h (p.take n)
    let p := p.drop n
    if 0 < p.length then ⟨h, p, len⟩ else ⟨h, x, len⟩
  else if 0 < p.length then ⟨h, p, len⟩ else ⟨h, x, len⟩

/-- Go `digest.Write`. -/
def digest.Write (d : digest) (p : Bytes) : digest :=
  let len := (d.len + p.length) % w64
  if 0 < d.x.length then
    let n := min (chunk - d.x.length) p.length
    let x := d.x ++ p.take n
    let p := p.drop n
    if x.length = chunk then digest.writeRest (block x.length d.h x) [] len p
    else digest.writeRest d.h x len p
  else digest.writeRest d.h d.x len p

/-- Go `digest.checkSum` behind `Sum`: write the padding and the bit length, return the chaining value. -/
def digest.Sum (d : digest) : Bytes :=
  let len := d.len
  let t := if len % 64 < 56 then 56 - len % 64 else 64 + 56 - len % 64
  let padlen := [0x80] ++ List.replicate (t - 1) 0 ++ beBytes 8 ((len * 8) % w64)
  let d := d.Write padlen
  stateBytes d.h

/-- Go `fmt.Fprintf(hash, "blob %d\x00", size)`: one write of the formatted header. -/
def fprintfBlob (hash : digest) (size : Nat) : digest :=
  hash.Write ([98, 108, 111, 98, 32] ++ fmtInteger (size + 1) size [] ++ [0])

/-- Go `io.Copy(hash, f)`: the bytes read go to the hash buffer by buffer, 32 KiB at a time. -/
def ioCopy : Nat → digest → Bytes → digest
  | 0, hash, _ => hash
  | n + 1, hash, src =>
    if src = [] then hash else ioCopy n (hash.Write (src.take 32768)) (src.drop 32768)

/-- The hashing of one file as the task does it: header, copy, sum, format. -/
def hashFile (size : Nat) (content : Bytes) : String :=
  let hash := sha1New
  let hash := fprintfBlob hash size
  let hash := ioCopy content.length hash content
  fmtSbx hash.Sum

/-! ## Base64 (Go `encoding/base64`, `StdEncoding`) -/

def base64Alphabet : List Char :=
  "ABCDEFGHIJKLMNOPQRSTUVWXYZabcdefghijklmnopqrstuvwxyz0123456789+/".data

def base64Char (n : Nat) : Char := base64Alphabet.getD (n % 64) 'A'

/-- Standard base64 with padding, three input bytes to four output characters. -/
def base64Encode : Bytes → List Char
  | [] => []
  | [a] =>
    let n := a.toNat * 65536
    [base64Char (n / 262144), base64Char (n / 4096), '=', '=']
  | [a, b] =>
    let n := a.toNat * 65536 + b.toNat * 256
    [base64Char (n / 262144), base64Char (n / 4096), base64Char (n / 64), '=']
  | a :: b :: c :: rest =>
    let n := a.toNat * 65536 + b.toNat * 256 + c.toNat
    base64Char (n / 262144) :: base64Char (n / 4096) :: base64Char (n / 64) :: base64Char n ::
      base64Encode rest

/-- Go `base64.StdEncoding.EncodeToString([]byte(s))`. -/
def base64EncodeToString (s : String) : String :=
  String.mk (base64Encode (s.data.flatMap String.utf8EncodeChar))

/-! ## Paths (Go `path/filepath` on a system whose separator is `/`) -/

/-- Go `filepath.Base`: the last element of a path, after removing trailing
separators; `.` for the empty path and `/` for a path of separators only. -/
def filepathBase (path : String) : String :=
  if path = "" then "."
  else
    let stripped := (path.data.reverse.dropWhile fun c => c == '/').reverse
    let last := (stripped.reverse.takeWhile fun c => c != '/').reverse
    if last = [] then "/" else String.mk last

/-- Go `filepath.Match("*.bin", name)`: the star matches any run of characters
other than the separator, so the name has no separator and ends in `.bin`. -/
def matchBin (name : String) : Bool :=
  !name.data.contains '/' && ".bin".data.isSuffixOf name.data

/-! ## Go maps as association lists -/

abbrev GoMap (V : Type) := List (String × V)

/-- The keys of a map. -/
def mapKeys {V : Type} (m : GoMap V) : List String := m.map Prod.fst

/-- The lookup `v, ok := m[k]`. -/
def mapGet {V : Type} : GoMap V → String → Option V
  | [], _ => none
  | e :: rest, k => if e.1 = k then some e.2 else mapGet rest k

/-- The statement `delete(m, k)`. -/
def mapDelete {V : Type} (m : GoMap V) (k : String) : GoMap V :=
  m.filter fun e => decide (e.1 ≠ k)

/-- The assignment `m[k] = v`. -/
def mapSet {V : Type} (m : GoMap V) (k : String) (v : V) : GoMap V :=
  mapDelete m k ++ [(k, v)]

/-! ## The working directory -/

/-- What opening a file gives: the size `Stat` reports and the bytes a read delivers. -/
structure File where
  size : Nat
  content : Bytes
deriving DecidableEq, Repr

/-- An entry of the working directory: a name of a regular file (two names
with the same inode number are hard links to one file), a symbolic link, or a
subdirectory. -/
inductive Entry where
  | file (ino : Nat) (f : File)
  | symlink (target : String)
  | dir
deriving DecidableEq, Repr

/-- The working directory: its entries by name. -/
abbrev Dir := GoMap Entry

/-- The inode number of an entry, 0 for what is not a regular file. -/
def inoOf : Entry → Nat
  | .file ino _ => ino
  | _ => 0

/-- An inode number no entry has. -/
def freshIno (dir : Dir) : Nat :=
  (dir.map fun e => inoOf e.2).foldl max 0 + 1

/-- The components of a path between its separators. -/
def splitPath : List Char → List (List Char)
  | [] => [[]]
  | c :: cs =>
    if c = '/' then [] :: splitPath cs
    else
      match splitPath cs with
      | [] => [[c]]
      | h :: t => (c :: h) :: t

/-- Where one pass over a path ends: at a name of the working directory (an
entry that is a regular file, or no entry yet), at a symbolic link to follow,
outside the working directory, or nowhere a file can be opened or created. -/
inductive Step where
  | slot (name : String)
  | link (target : String)
  | elsewhere
  | fails
deriving DecidableEq, Repr

/-- Walk the components of a relative path from the working directory. -/
def stepComps (dir : Dir) : List (List Char) → Step
  | [] => .fails
  | c :: rest =>
    if c = [] ∨ c = ['.'] then stepComps dir rest
    else if c = ['.', '.'] then .elsewhere
    else if rest = [] then
      match mapGet dir (String.mk c) with
      | none => .slot (String.mk c)
      | some (.file _ _) => .slot (String.mk c)
      | some (.symlink target) => .link target
      | some .dir => .fails
    else
      match mapGet dir (String.mk c) with
      | some .dir => .elsewhere
      | some (.symlink _) => .elsewhere
      | _ => .fails

/-- One pass of path resolution. A path whose last component is empty, `.` or
`..` names a directory, where no file can be read or created; an absolute path
leaves the working directory. -/
def stepPath (dir : Dir) (path : String) : Step :=
  let comps := splitPath path.data
  if comps.getLast? = some [] ∨ comps.getLast? = some ['.'] ∨ comps.getLast? = some ['.', '.'] then
    .fails
  else if path.data.head? = some '/' then .elsewhere
  else stepComps dir comps

/-- Where a path leads in the end. -/
inductive Target where
  | slot (name : String)
  | outside
  | fails
deriving DecidableEq, Repr

/-! ## Data model -/

structure contentEntry where
  Name : String
  Sha : String
  Size : Int
  DownloadURL : String
deriving DecidableEq, Repr

structure Request where
  method : String
  url : String
  header : GoMap String
deriving DecidableEq, Repr

structure Response where
  statusCode : Nat
  body : Bytes
deriving DecidableEq, Repr

/-- The errors a run can end with. -/
inductive Error where
  | read (path : String)
  | newRequest (url : String)
  | transport (url : String)
  | status (got : Nat) (body : Bytes)
  | decode
  | create (path : String)
  | copy (path : String)
  | close (path : String)
  | remove (path : String)
deriving DecidableEq, Repr

deriving instance DecidableEq for Except

/-- What the run does not decide itself: the command line and process
environment, the outcome of every fallible system call, the answers of the
remote side, what lies outside the working directory, and the order in which
`range` visits the two maps. -/
structure Env where
  userPassFlag : String
  getenv : String → String
  readFails : String → Bool
  elsewhere : String → Option String
  outsideFile : String → Option File
  newRequestFails : String → Bool
  httpDo : Request → Except Error Response
  jsonDecode : Bytes → Option (List contentEntry)
  rangeContents : GoMap contentEntry → GoMap contentEntry
  rangeContents_perm : ∀ m, (rangeContents m).Perm m
  createFails : String → Bool
  copyStops : String → Option Nat
  closeFails : String → Bool
  removeFails : String → Bool
  rangeLeftover : GoMap String → GoMap String
  rangeLeftover_perm : ∀ m, (rangeLeftover m).Perm m

/-- Path resolution: follow symbolic links, at most `fuel` of them. A path
that leaves the working directory comes back to the name `env.elsewhere` gives
for it, or stays outside. -/
def resolve (env : Env) (dir : Dir) : Nat → String → Target
  | 0, _ => .fails
  | fuel + 1, path =>
    match stepPath dir path with
    | .slot name => .slot name
    | .link target => resolve env dir fuel target
    | .elsewhere =>
      match env.elsewhere path with
      | some name => .slot name
      | none => .outside
    | .fails => .fails

/-- The number of symbolic links the system follows in one resolution, plus one. -/
def maxLinks : Nat := 41

/-- Open a path and read it: the size `Stat` reports and the bytes `io.Copy` gets. -/
def readFile (env : Env) (dir : Dir) (path : String) : Option File :=
  if env.readFails path then none
  else
    match resolve env dir maxLinks path with
    | .slot name =>
      match mapGet dir name with
      | some (.file _ f) => some f
      | _ => none
    | .outside => env.outsideFile path
    | .fails => none

/-- Give the file with inode `ino` the contents `f`, under whatever name it is entered. -/
def overwrite (ino : Nat) (f : File) : Entry → Entry
  | .file i g => if i = ino then .file i f else .file i g
  | e => e

/-- Create or truncate the regular file under a name and give it the bytes
`data`: every name with the same inode sees them; a new name gets a new inode. -/
def writeFile (dir : Dir) (name : String) (data : Bytes) : Option Dir :=
  match mapGet dir name with
  | none => some (dir ++ [(name, .file (freshIno dir) ⟨data.length, data⟩)])
  | some (.file ino _) => some (dir.map fun e => (e.1, overwrite ino ⟨data.length, data⟩ e.2))
  | some _ => none

/-- Git commit hash of the firmware repository to take updates from. -/
def eepromRef : String := "4c5aebdb200bc9a2ffd2a0158efffb9603c33be7"

def manifestURL : String :=
  "https://api.github.com/repos/raspberrypi/rpi-eeprom/contents/firmware-2711/latest?ref=" ++
    eepromRef

/-! ## The program -/

/-- The `authenticate` function: sets the Authorization header when the credential is non-empty. -/
def authenticate (userPass : String) (req : Request) : Request :=
  if userPass ≠ "" then
    { req with header := mapSet req.header "Authorization" ("Basic " ++ base64EncodeToString userPass) }
  else req

/-- The start of `main`: an empty flag is replaced by the two environment
variables joined by a colon, when that string is non-empty. -/
def defaultUserPass (flag : String) (getenv : String → String) : String :=
  if flag = "" then
    let fromEnv := getenv "GITHUB_USER" ++ ":" ++ getenv "GITHUB_AUTH_TOKEN"
    if fromEnv ≠ "" then fromEnv else flag
  else flag

/-- The request `githubContents` sends. -/
def manifestRequest (userPass url : String) : Request :=
  authenticate userPass ⟨"GET", url, []⟩

/-- The loop of `githubContents` that keys the decoded listing by name. -/
def manifestMap (contents : List contentEntry) : GoMap contentEntry :=
  contents.foldl (fun result c => mapSet result c.Name c) []

/-- The `githubContents` function. -/
def githubContents (env : Env) (userPass url : String) : Except Error (GoMap contentEntry) :=
  if env.newRequestFails url then .error (.newRequest url)
  else
    match env.httpDo (manifestRequest userPass url) with
    | .error e => .error e
    | .ok resp =>
      if resp.statusCode ≠ 200 then .error (.status resp.statusCode resp.body)
      else
        match env.jsonDecode resp.body with
        | none => .error .decode
        | some contents => .ok (manifestMap contents)

/-- Go `filepath.Glob("*.bin")`: the names of the working directory that match. -/
def filepathGlob (dir : Dir) : List String :=
  (mapKeys dir).filter matchBin

/-- One hashing task of `main`: the key and value it stores in `firmwareHashes`. -/
def hashTask (env : Env) (dir : Dir) (path : String) : Except Error (String × String) :=
  match readFile env dir path with
  | none => .error (.read path)
  | some f => .ok (filepathBase path, hashFile f.size f.content)

/-- The hashing group of `main`: every task stores its result; the first error ends the run. -/
def hashAll (env : Env) (dir : Dir) : List String → GoMap String → Except Error (GoMap String)
  | [], firmwareHashes => .ok firmwareHashes
  | path :: rest, firmwareHashes =>
    match hashTask env dir path with
    | .error e => .error e
    | .ok kv => hashAll env dir rest (mapSet firmwareHashes kv.1 kv.2)

/-- The state of the reconcile loop: the local hashes not yet consumed and the
fetch tasks handed to the group so far. -/
structure LoopState where
  firmwareHashes : GoMap String
  scheduled : List (String × contentEntry)
deriving DecidableEq, Repr

/-- One iteration of the reconcile loop of `main`. -/
def reconcileStep (st : LoopState) (kv : String × contentEntry) : LoopState :=
  let path := kv.1
  let githubContent := kv.2
  let fn := filepathBase path
  match mapGet st.firmwareHashes fn with
  | some localHash =>
    if localHash = githubContent.Sha then
      { st with firmwareHashes := mapDelete st.firmwareHashes fn }
    else
      { firmwareHashes := mapDelete st.firmwareHashes fn
        scheduled := st.scheduled ++ [(path, githubContent)] }
  | none =>
    { firmwareHashes := mapDelete st.firmwareHashes fn
      scheduled := st.scheduled ++ [(path, githubContent)] }

/-- The reconcile loop of `main` over the manifest in the order `range` visits it. -/
def reconcile (order : GoMap contentEntry) (firmwareHashes : GoMap String) : LoopState :=
  order.foldl reconcileStep ⟨firmwareHashes, []⟩

/-- The request a fetch task sends. -/
def downloadRequest (userPass : String) (githubContent : contentEntry) : Request :=
  let req := authenticate userPass ⟨"GET", githubContent.DownloadURL, []⟩
  { req with header := mapSet req.header "Accept" "application/vnd.github.v3.raw" }

/-- The bytes a fetch task gets into the file: all of the body, or what
`io.Copy` wrote before it failed. -/
def copied (env : Env) (path : String) (body : Bytes) : Bytes :=
  match env.copyStops path with
  | some k => body.take k
  | none => body

/-- The error of a fetch task once the file is open: from `io.Copy` or from `Close`. -/
def copyError (env : Env) (path : String) : Option Error :=
  match env.copyStops path with
  | some _ => some (.copy path)
  | none => if env.closeFails path then some (.close path) else none

/-- One fetch task of `main`: its error, if any, and the directory it leaves. -/
def fetchTask (env : Env) (userPass : String) (dir : Dir) (path : String)
    (githubContent : contentEntry) : Option Error × Dir :=
  if env.newRequestFails githubContent.DownloadURL then
    (some (.newRequest githubContent.DownloadURL), dir)
  else
    match env.httpDo (downloadRequest userPass githubContent) with
    | .error e => (some e, dir)
    | .ok resp =>
      if env.createFails path then (some (.create path), dir)
      else
        match resolve env dir maxLinks path with
        | .fails => (some (.create path), dir)
        | .outside => (copyError env path, dir)
        | .slot name =>
          match writeFile dir name (copied env path resp.body) with
          | none => (some (.create path), dir)
          | some dir1 => (copyError env path, dir1)

/-- The fetch group of `main`: every scheduled task runs; `Wait` reports the first error. -/
def fetchAll (env : Env) (userPass : String) :
    List (String × contentEntry) → Dir → Option Error × Dir
  | [], dir => (none, dir)
  | kv :: rest, dir =>
    let r := fetchTask env userPass dir kv.1 kv.2
    let rs := fetchAll env userPass rest r.2
    (r.1.orElse fun _ => rs.1, rs.2)

/-- Go `os.Remove` on a name of the directory listing: the entry goes, whatever it is. -/
def osRemove (env : Env) (dir : Dir) (name : String) : Except Error Dir :=
  if env.removeFails name || (mapGet dir name).isNone then .error (.remove name)
  else .ok (mapDelete dir name)

/-- What the removal loop leaves: its error, the directory, the names passed to `os.Remove`. -/
structure Removal where
  fatal : Option Error
  dir : Dir
  removeCalls : List String
deriving DecidableEq, Repr

/-- The last loop of `main`: remove every leftover; the first failure ends the run. -/
def removeAll (env : Env) : List String → Dir → Removal
  | [], dir => ⟨none, dir, []⟩
  | leftover :: rest, dir =>
    match osRemove env dir leftover with
    | .error e => ⟨some e, dir, [leftover]⟩
    | .ok dir1 =>
      let r := removeAll env rest dir1
      ⟨r.fatal, r.dir, leftover :: r.removeCalls⟩

/-- What a run leaves behind: the error it died with (none for a normal
return), the directory, the fetch tasks handed to the group, and the names
passed to `os.Remove`. -/
structure Outcome where
  fatal : Option Error
  dir : Dir
  scheduled : List (String × contentEntry)
  removeCalls : List String
deriving DecidableEq, Repr

/-- The `main` function. -/
def main (env : Env) (dir : Dir) : Outcome :=
  let userPass := defaultUserPass env.userPassFlag env.getenv
  let eepromFiles := filepathGlob dir
  match hashAll env dir eepromFiles [] with
  | .error e => ⟨some e, dir, [], []⟩
  | .ok firmwareHashes =>
    match githubContents env userPass manifestURL with
    | .error e => ⟨some e, dir, [], []⟩
    | .ok contents =>
      let st := reconcile (env.rangeContents contents) firmwareHashes
      let fetched := fetchAll env userPass st.scheduled dir
      match fetched.1 with
      | some e => ⟨some e, fetched.2, st.scheduled, []⟩
      | none =>
        let r := removeAll env (mapKeys (env.rangeLeftover st.firmwareHashes)) fetched.2
        ⟨r.fatal, r.dir, st.scheduled, r.removeCalls⟩

/-- The credential `main` works with, after the default from the process environment. -/
def userPassOf (env : Env) : String := defaultUserPass env.userPassFlag env.getenv

/-- The local hash mapping `main` builds, or the error of the hashing group. -/
def localHashes (env : Env) (dir : Dir) : Except Error (GoMap String) :=
  hashAll env dir (filepathGlob dir) []

/-- The manifest `main` obtains, or the error of `githubContents`. -/
def manifest (env : Env) : Except Error (GoMap contentEntry) :=
  githubContents env (userPassOf env) manifestURL

/-! ## What the claims speak of -/

/-- The regular file entered under a name. -/
def fileAt (dir : Dir) (name : String) : Option File :=
  match mapGet dir name with
  | some (.file _ f) => some f
  | _ => none

/-- The bytes of the regular file entered under a name. -/
def contentAt (dir : Dir) (name : String) : Option Bytes :=
  (fileAt dir name).map fun f => f.content

/-- The content hash of a file as the specification words it, with the length
the file declares; for a file whose declared length is the length of its bytes
it is the git blob hash of the bytes. -/
def fileHash (f : File) : String := blobHash f.size f.content

def isSymlink : Entry → Bool
  | .symlink _ => true
  | _ => false

/-- The inode number of a regular file. -/
def fileIno : Entry → Option Nat
  | .file ino _ => some ino
  | _ => none

/-- A directory without symbolic links. -/
def NoSymlinks (dir : Dir) : Prop :=
  ∀ e ∈ dir, isSymlink e.2 = false

/-- Two entries are not two names of one file. -/
def distinctFiles (a b : String × Entry) : Prop :=
  fileIno a.2 = none ∨ fileIno b.2 = none ∨ fileIno a.2 ≠ fileIno b.2

instance (a b : String × Entry) : Decidable (distinctFiles a b) := by
  unfold distinctFiles
  infer_instance

/-- A directory in which every file has one name: no symbolic link, and no
two names hard-linked to one file. -/
def Unaliased (dir : Dir) : Prop :=
  NoSymlinks dir ∧ dir.Pairwise distinctFiles

/-- What path resolution sees of an entry: nothing in its way (no entry, or a
regular file), a symbolic link, or a subdirectory. -/
inductive Kind where
  | free
  | symlink (target : String)
  | dir
deriving DecidableEq, Repr

def kindOf : Option Entry → Kind
  | none => .free
  | some (.file _ _) => .free
  | some (.symlink target) => .symlink target
  | some .dir => .dir

/-- Two directories with the same symbolic links and subdirectories: they
differ in regular files only. -/
def SameShape (d1 d2 : Dir) : Prop :=
  ∀ n, kindOf (mapGet d1 n) = kindOf (mapGet d2 n)

/-- A name is current: it is in the manifest and the local hash equals the sha of its entry. -/
def isCurrent (L : GoMap String) (R : GoMap contentEntry) (n : String) : Prop :=
  ∃ c, mapGet R n = some c ∧ mapGet L n = some c.Sha

/-- A name needs a fetch: it is in the manifest with a different or absent local hash. -/
def needsFetch (L : GoMap String) (R : GoMap contentEntry) (n : String) : Prop :=
  ∃ c, mapGet R n = some c ∧ mapGet L n ≠ some c.Sha

/-- A name is orphaned: it is in the local mapping and not in the manifest. -/
def isOrphaned (L : GoMap String) (R : GoMap contentEntry) (n : String) : Prop :=
  n ∈ mapKeys L ∧ n ∉ mapKeys R

/-- The plan as the specification states it for the state the loop ends in:
every name of the union is in exactly one class, a fetch task is scheduled for
exactly the names that need one, and the mapping left is exactly the orphaned names. -/
def ReconcilePlan (L : GoMap String) (R : GoMap contentEntry) (st : LoopState) : Prop :=
  (∀ n, n ∈ mapKeys L ∨ n ∈ mapKeys R →
    (isCurrent L R n ∧ ¬ needsFetch L R n ∧ ¬ isOrphaned L R n) ∨
    (¬ isCurrent L R n ∧ needsFetch L R n ∧ ¬ isOrphaned L R n) ∨
    (¬ isCurrent L R n ∧ ¬ needsFetch L R n ∧ isOrphaned L R n)) ∧
  (∀ n, n ∈ st.scheduled.map Prod.fst ↔ needsFetch L R n) ∧
  (∀ n, n ∈ mapKeys st.firmwareHashes ↔ isOrphaned L R n)

/-! ## Concrete environments and directories -/

/-- An environment in which the manifest request is answered with `status`
and the listing `contents`, a download of `url` with `served url`, creating a
path of `noCreate` fails, nothing else does, and no path that leaves the
working directory comes back to it. -/
def Env.scripted (contents : List contentEntry) (served : String → Bytes)
    (noCreate : List String) (status : Nat) : Env where
  userPassFlag := "user:token"
  getenv := fun _ => ""
  readFails := fun _ => false
  elsewhere := fun _ => none
  outsideFile := fun _ => none
  newRequestFails := fun _ => false
  httpDo := fun req =>
    if req.url = manifestURL then .ok ⟨status, []⟩ else .ok ⟨200, served req.url⟩
  jsonDecode := fun _ => some contents
  rangeContents := fun m => m
  rangeContents_perm := fun m => List.Perm.refl m
  createFails := fun p => decide (p ∈ noCreate)
  copyStops := fun _ => none
  closeFails := fun _ => false
  removeFails := fun _ => false
  rangeLeftover := fun m => m
  rangeLeftover_perm := fun m => List.Perm.refl m

/-- A regular file with the bytes `b`. -/
def regular (ino : Nat) (b : Bytes) : Entry := .file ino ⟨b.length, b⟩

/-- The download server of the examples: `uc` serves the byte 3, `ur` the byte 5,
`ua` the byte 9, any other location nothing. -/
def sampleServed (url : String) : Bytes :=
  if url = "uc" then [3] else if url = "ur" then [5] else if url = "ua" then [9] else []

/-- The scenario of the specification: `a.bin` is current, `c.bin` is new. -/
def scenarioListing : List contentEntry :=
  [⟨"a.bin", gitBlobHash [1], 1, "ua"⟩, ⟨"c.bin", gitBlobHash [3], 1, "uc"⟩]

def scenarioEnv : Env := Env.scripted scenarioListing sampleServed [] 200

def scenarioDir : Dir := [("a.bin", regular 1 [1]), ("b.bin", regular 2 [2])]

/-- A directory with a file that does not match the pattern. -/
def notesDir : Dir := [("a.bin", regular 1 [1]), ("notes.txt", regular 2 [7])]

/-- A listing whose only name is not a base name; its sha is the hash of the byte 1. -/
def nestedListing : List contentEntry := [⟨"x/a.bin", gitBlobHash [1], 1, "ux"⟩]

def nestedEnv : Env := Env.scripted nestedListing sampleServed [] 200

/-- A listing whose download location serves other bytes than the sha announces. -/
def staleListing : List contentEntry := [⟨"c.bin", gitBlobHash [4], 1, "uc"⟩]

def staleEnv : Env := Env.scripted staleListing sampleServed [] 200

/-- A listing with a name that does not match the pattern. -/
def readmeListing : List contentEntry := [⟨"README.md", gitBlobHash [5], 1, "ur"⟩]

def readmeEnv : Env := Env.scripted readmeListing sampleServed [] 200

/-- A directory whose `README.md` is a symbolic link to a name that does not exist. -/
def danglingDir : Dir := [("README.md", .symlink "t.bin")]

/-- A listing in which two names share the base name `a.bin`. -/
def clashListing : List contentEntry :=
  [⟨"x/a.bin", "0", 1, "ux"⟩, ⟨"a.bin", gitBlobHash [1], 1, "ua"⟩]

def clashEnv : Env := Env.scripted clashListing sampleServed [] 200

/-- A directory with the file `a.bin` and the subdirectory `x`. -/
def clashDir : Dir := [("a.bin", regular 1 [1]), ("x", .dir)]

/-- A directory in which `l.bin` is a hard link to `a.bin`. -/
def linkedDir : Dir := [("a.bin", regular 1 [1]), ("l.bin", regular 1 [1])]

/-- A listing for the linked directory: `a.bin` as it is, `l.bin` with the byte 3. -/
def linkedListing : List contentEntry :=
  [⟨"a.bin", gitBlobHash [1], 1, "ua"⟩, ⟨"l.bin", gitBlobHash [3], 1, "uc"⟩]

def linkedEnv : Env := Env.scripted linkedListing sampleServed [] 200

/-- A directory in which `s.bin` is a symbolic link to `a.bin`. -/
def aliasDir : Dir := [("a.bin", regular 1 [1]), ("s.bin", .symlink "a.bin")]

/-- A listing for the directory with the symbolic link: `a.bin` as it is, `s.bin` with the byte 3. -/
def aliasListing : List contentEntry :=
  [⟨"a.bin", gitBlobHash [1], 1, "ua"⟩, ⟨"s.bin", gitBlobHash [3], 1, "uc"⟩]

def aliasEnv : Env := Env.scripted aliasListing sampleServed [] 200

/-- An environment whose manifest request is answered with status 403. -/
def forbiddenEnv : Env := Env.scripted scenarioListing sampleServed [] 403

/-- An environment in which `c.bin` cannot be created. -/
def readOnlyEnv : Env := Env.scripted scenarioListing sampleServed ["c.bin"] 200

/-- A hundred bytes, 0 to 99. -/
def hundredBytes : Bytes := (List.range 100).map UInt8.ofNat

/-- A directory with a file of a hundred bytes, a file whose reported size is
0 although reading it delivers three bytes, and a regular file with those three bytes. -/
def sizedDir : Dir :=
  [("big.bin", regular 1 hundredBytes), ("proc.bin", .file 2 ⟨0, [104, 105, 10]⟩),
   ("hi.bin", regular 3 [104, 105, 10])]

/-- A directory whose one file reports the size 0 and delivers three bytes. -/
def procDir : Dir := [("proc.bin", .file 2 ⟨0, [104, 105, 10]⟩)]

/-- A listing whose sha for `proc.bin` is the hash of those bytes under the header `blob 0`. -/
def procListing : List contentEntry := [⟨"proc.bin", blobHash 0 [104, 105, 10], 3, "up"⟩]

def procEnv : Env := Env.scripted procListing sampleServed [] 200

/-- A name a file of the working directory can have: not empty, without a
separator, and neither `.` nor `..`. -/
def fileName (p : String) : Prop :=
  p.data ≠ [] ∧ (∀ c ∈ p.data, c ≠ '/') ∧ p.data ≠ ['.'] ∧ p.data ≠ ['.', '.']

instance (dir : Dir) : Decidable (NoSymlinks dir) := by
  unfold NoSymlinks
  infer_instance

instance (dir : Dir) : Decidable (Unaliased dir) := by
  unfold Unaliased
  infer_instance

/-! ## The state of the digest after a message -/

/-- The chaining value after the whole blocks of a message. -/
def absorbed (m : Bytes) : Sha1State :=
  (blocks64 (m.length / 64) (m.take (m.length / 64 * 64))).foldl sha1Block sha1Init

/-- The digest state after writing the message `m`, in whatever pieces. -/
def digestOf (m : Bytes) : digest :=
  ⟨absorbed m, m.drop (m.length / 64 * 64), m.length % w64⟩

/-! ## Lemmas: maps -/

theorem mapGet_delete {V : Type} (m : GoMap V) (k x : String) :
    mapGet (mapDelete m k) x = if x = k then none else mapGet m x := by
  induction m with
  | nil => simp [mapDelete, mapGet]
  | cons e rest ih =>
    unfold mapDelete at ih ⊢
    by_cases hek : e.1 = k
    · simp only [List.filter, hek, ne_eq, not_true_eq_false, decide_False, mapGet]
      rw [ih]
      by_cases hx : x = k
      · simp [hx]
      · have : ¬ k = x := fun h => hx h.symm
        simp [hx, this]
    · simp only [List.filter, hek, ne_eq, not_false_eq_true, decide_True, mapGet]
      rw [ih]
      by_cases hx : x = k
      · subst hx
        simp [hek]
      · simp [hx]

theorem mapGet_append {V : Type} (m m2 : GoMap V) (x : String) :
    mapGet (m ++ m2) x = (mapGet m x).orElse fun _ => mapGet m2 x := by
  induction m with
  | nil => simp [mapGet]
  | cons e rest ih =>
    by_cases h : e.1 = x
    · simp [mapGet, h]
    · simp [mapGet, h, ih]

theorem mapGet_set {V : Type} (m : GoMap V) (k x : String) (v : V) :
    mapGet (mapSet m k v) x = if x = k then some v else mapGet m x := by
  unfold mapSet
  rw [mapGet_append, mapGet_delete]
  by_cases hx : x = k
  · subst hx
    simp [mapGet]
  · have : ¬ k = x := fun h => hx h.symm
    simp only [hx, if_false, mapGet, this]
    cases mapGet m x <;> rfl

theorem mem_mapKeys_iff {V : Type} (m : GoMap V) (n : String) :
    n ∈ mapKeys m ↔ ∃ v, mapGet m n = some v := by
  induction m with
  | nil => simp [mapKeys, mapGet]
  | cons e rest ih =>
    by_cases h : e.1 = n
    · simp [mapKeys, mapGet, h]
    · have h2 : ¬ n = e.1 := fun h3 => h h3.symm
      simp only [mapKeys, List.map_cons, List.mem_cons, h2, false_or, mapGet, h, if_false]
      exact ih

theorem not_mem_mapKeys_iff {V : Type} (m : GoMap V) (n : String) :
    n ∉ mapKeys m ↔ mapGet m n = none := by
  rw [mem_mapKeys_iff]
  cases mapGet m n <;> simp

theorem mem_mapKeys_delete {V : Type} (m : GoMap V) (k n : String) :
    n ∈ mapKeys (mapDelete m k) ↔ n ∈ mapKeys m ∧ n ≠ k := by
  rw [mem_mapKeys_iff, mem_mapKeys_iff, mapGet_delete]
  by_cases h : n = k <;> simp [h]

theorem mem_mapKeys_set {V : Type} (m : GoMap V) (k n : String) (v : V) :
    n ∈ mapKeys (mapSet m k v) ↔ n = k ∨ n ∈ mapKeys m := by
  rw [mem_mapKeys_iff, mem_mapKeys_iff, mapGet_set]
  by_cases h : n = k <;> simp [h]

theorem mapGet_of_mem {V : Type} (m : GoMap V) (k : String) (v : V)
    (hnd : (mapKeys m).Nodup) (hmem : (k, v) ∈ m) : mapGet m k = some v := by
  induction m with
  | nil => simp at hmem
  | cons e rest ih =>
    simp only [mapKeys, List.map_cons, List.nodup_cons] at hnd
    rcases List.mem_cons.mp hmem with h | h
    · subst h
      simp [mapGet]
    · have hk : k ∈ rest.map Prod.fst := List.mem_map.mpr ⟨(k, v), h, rfl⟩
      have hne : ¬ e.1 = k := fun h2 => hnd.1 (h2 ▸ hk)
      simp only [mapGet, hne, if_false]
      exact ih hnd.2 h

theorem mem_of_mapGet {V : Type} (m : GoMap V) (k : String) (v : V)
    (h : mapGet m k = some v) : (k, v) ∈ m := by
  induction m with
  | nil => simp [mapGet] at h
  | cons e rest ih =>
    by_cases hek : e.1 = k
    · simp only [mapGet, hek, if_true, Option.some.injEq] at h
      have : e = (k, v) := Prod.ext hek h
      simp [this]
    · simp only [mapGet, hek, if_false] at h
      exact List.mem_cons_of_mem _ (ih h)

theorem nodup_mapKeys_delete {V : Type} (m : GoMap V) (k : String)
    (hnd : (mapKeys m).Nodup) : (mapKeys (mapDelete m k)).Nodup := by
  unfold mapKeys mapDelete at *
  exact (List.filter_sublist m).map Prod.fst |>.nodup hnd

theorem nodup_mapKeys_set {V : Type} (m : GoMap V) (k : String) (v : V)
    (hnd : (mapKeys m).Nodup) : (mapKeys (mapSet m k v)).Nodup := by
  have h1 := nodup_mapKeys_delete m k hnd
  have h2 : k ∉ mapKeys (mapDelete m k) := by
    rw [mem_mapKeys_delete]
    simp
  unfold mapSet mapKeys at *
  rw [List.map_append, List.nodup_append]
  refine ⟨h1, by simp, ?_⟩
  intro a ha hb
  simp only [List.map_cons, List.map_nil, List.mem_singleton] at hb
  subst hb
  exact h2 ha

theorem nodup_manifestMap_aux (cs : List contentEntry) (m : GoMap contentEntry)
    (hnd : (mapKeys m).Nodup) :
    (mapKeys (cs.foldl (fun result c => mapSet result c.Name c) m)).Nodup := by
  induction cs generalizing m with
  | nil => simpa using hnd
  | cons c rest ih => exact ih _ (nodup_mapKeys_set m c.Name c hnd)

theorem nodup_manifestMap (cs : List contentEntry) : (mapKeys (manifestMap cs)).Nodup :=
  nodup_manifestMap_aux cs [] (by simp [mapKeys])

/-! ## Lemmas: paths -/

theorem filepathBase_mk (l : List Char) (hne : l ≠ []) (hsep : ∀ c ∈ l, c ≠ '/') :
    filepathBase (String.mk l) = String.mk l := by
  have h0 : String.mk l ≠ "" := by
    intro h
    apply hne
    have := congrArg String.data h
    simpa using this
  have h1 : (l.reverse.dropWhile fun c => c == '/') = l.reverse := by
    cases hr : l.reverse with
    | nil => rfl
    | cons a t =>
      have ha : a ∈ l := by
        have : a ∈ l.reverse := by rw [hr]; simp
        simpa using this
      have hb : (a == '/') = false := by simpa using hsep a ha
      simp only [List.dropWhile, hb]
  have h2 : (l.reverse.takeWhile fun c => c != '/') = l.reverse := by
    rw [List.takeWhile_eq_self_iff]
    intro c hc
    have := hsep c (by simpa using hc)
    simp [this]
  unfold filepathBase
  simp only [h0, if_false, h1, List.reverse_reverse, h2]
  simp [hne]

theorem filepathBase_of_matchBin (n : String) (h : matchBin n = true) : filepathBase n = n := by
  unfold matchBin at h
  simp only [Bool.and_eq_true, Bool.not_eq_true', List.isSuffixOf_iff_suffix] at h
  obtain ⟨h1, h2⟩ := h
  have hne : n.data ≠ [] := by
    intro h0
    rw [h0] at h2
    have := List.suffix_nil.mp h2
    exact absurd this (by decide)
  have hsep : ∀ c ∈ n.data, c ≠ '/' := by
    intro c hc hcs
    subst hcs
    have : n.data.contains '/' = true := by simpa using hc
    rw [h1] at this
    cases this
  exact filepathBase_mk n.data hne hsep

theorem filepathBase_idem (p : String) : filepathBase (filepathBase p) = filepathBase p := by
  by_cases h0 : p = ""
  · subst h0
    decide
  · generalize hl : ((((p.data.reverse.dropWhile fun c => c == '/').reverse).reverse.takeWhile
        fun c => c != '/').reverse) = last
    have hb : filepathBase p = if last = [] then "/" else String.mk last := by
      unfold filepathBase
      simp only [h0, if_false, hl]
    by_cases hlast : last = []
    · rw [hb]
      simp only [hlast, if_true]
      decide
    · rw [hb]
      simp only [hlast, if_false]
      apply filepathBase_mk last hlast
      intro c hc
      rw [← hl] at hc
      have := List.mem_takeWhile_imp (List.mem_reverse.mp hc)
      simpa using this

/-! ## Lemmas: hashing -/

theorem length_beBytes (k x : Nat) : (beBytes k x).length = k := by
  induction k with
  | zero => rfl
  | succ k ih => simp [beBytes, ih]

theorem length_hexString (b : Bytes) : (hexString b).length = 2 * b.length := by
  unfold hexString
  rw [String.length_mk]
  induction b with
  | nil => rfl
  | cons x rest ih =>
    simp only [List.flatMap_cons, List.length_append, ih, List.length_cons, List.length_nil]
    omega

theorem hexDigit_mem : ∀ n, n < 16 → hexDigit n ∈ "0123456789abcdef".data := by
  decide

theorem hexString_chars (b : Bytes) : ∀ c ∈ (hexString b).data, c ∈ "0123456789abcdef".data := by
  intro c hc
  unfold hexString at hc
  simp only [List.mem_flatMap, List.mem_cons, List.mem_singleton] at hc
  obtain ⟨x, _, hx⟩ := hc
  have hlt : x.toNat < 256 := x.val.isLt
  rcases hx with h | h | h
  · rw [h]
    exact hexDigit_mem _ (by omega)
  · rw [h]
    exact hexDigit_mem _ (by omega)
  · simp at h

/-! ## The Go formatting and hashing agree with the standard notation and SHA-1 -/

theorem digitChar_lt_ten : ∀ k, k < 10 → UInt8.ofNat (Nat.digitChar k).toNat = UInt8.ofNat (48 + k) := by
  decide

theorem fmtInteger_core (fuel u : Nat) (ds : List Char) :
    fmtInteger fuel u (ds.map fun c => UInt8.ofNat c.toNat) =
      (Nat.toDigitsCore 10 fuel u ds).map fun c => UInt8.ofNat c.toNat := by
  induction fuel generalizing u ds with
  | zero => rfl
  | succ fuel ih =>
    unfold fmtInteger Nat.toDigitsCore
    by_cases hu : u ≥ 10
    · have h0 : ¬ u / 10 = 0 := by omega
      have hd : u - u / 10 * 10 = u % 10 := by omega
      simp only [hu, h0, if_true, if_false, hd]
      rw [← digitChar_lt_ten (u % 10) (by omega)]
      exact ih (u / 10) (Nat.digitChar (u % 10) :: ds)
    · have h0 : u / 10 = 0 := by omega
      have hd : u % 10 = u := by omega
      simp only [hu, h0, if_true, if_false, hd, List.map_cons]
      rw [digitChar_lt_ten u (by omega)]

theorem fmtInteger_eq (n : Nat) : fmtInteger (n + 1) n [] = decimalBytes n :=
  fmtInteger_core (n + 1) n []

theorem ldigits_eq : ∀ n, n < 256 →
    ldigits.getD (n >>> 4) 'x' = hexDigit (n / 16) ∧ ldigits.getD (n &&& 15) 'x' = hexDigit (n % 16) := by
  decide

theorem fmtSbx_eq (b : Bytes) : fmtSbx b = hexString b := by
  unfold fmtSbx hexString
  congr 1
  apply List.flatMap_congr
  intro c _
  have h := ldigits_eq c.toNat c.val.isLt
  rw [h.1, h.2]

/-- Any fuel that covers the whole chunks gives the same result as folding the blocks. -/
theorem block_eq_foldl (n : Nat) (h : Sha1State) (p : Bytes) (hn : p.length / 64 ≤ n) :
    block n h p = (blocks64 (p.length / 64) p).foldl sha1Block h := by
  induction n generalizing h p with
  | zero =>
    have : p.length / 64 = 0 := by omega
    rw [this]
    rfl
  | succ n ih =>
    unfold block chunk
    by_cases hp : p.length ≥ 64
    · have hk : p.length / 64 = (p.drop 64).length / 64 + 1 := by
        rw [List.length_drop]
        omega
      simp only [hp, if_true]
      rw [ih _ _ (by rw [List.length_drop]; omega), hk, blocks64, List.foldl_cons]
    · have : p.length / 64 = 0 := by omega
      simp only [hp, if_false, this]
      rfl

theorem blocks64_append (k : Nat) (a b : Bytes) (ha : a.length = 64 * k) (m : Nat) :
    blocks64 (k + m) (a ++ b) = blocks64 k a ++ blocks64 m b := by
  induction k generalizing a with
  | zero =>
    have : a = [] := List.length_eq_zero.mp (by omega)
    subst this
    simp [blocks64]
  | succ k ih =>
    have h1 : (a ++ b).take 64 = a.take 64 := by
      rw [List.take_append_of_le_length (by omega)]
    have h2 : (a ++ b).drop 64 = a.drop 64 ++ b := by
      rw [List.drop_append_of_le_length (by omega)]
    have h3 : k + 1 + m = (k + m) + 1 := by omega
    rw [h3, blocks64, h1, h2, ih (a.drop 64) (by rw [List.length_drop]; omega), blocks64]
    rfl

theorem absorbed_of_whole (m : Bytes) (k : Nat) (hm : m.length = 64 * k) :
    absorbed m = (blocks64 k m).foldl sha1Block sha1Init := by
  unfold absorbed
  have h1 : m.length / 64 = k := by omega
  have h2 : m.take (k * 64) = m := List.take_of_length_le (by omega)
  rw [h1, h2]

theorem absorbed_append_whole (m p : Bytes) (k j : Nat) (hm : m.length = 64 * k)
    (hp : p.length = 64 * j) :
    absorbed (m ++ p) = (blocks64 j p).foldl sha1Block (absorbed m) := by
  rw [absorbed_of_whole (m ++ p) (k + j) (by rw [List.length_append]; omega),
    absorbed_of_whole m k hm, blocks64_append k m p hm j, List.foldl_append]

theorem absorbed_append_short (m p : Bytes) (h : m.length % 64 + p.length < 64) :
    absorbed (m ++ p) = absorbed m := by
  unfold absorbed
  have h1 : (m ++ p).length / 64 = m.length / 64 := by
    rw [List.length_append]
    omega
  rw [h1, List.take_append_of_le_length (by omega)]

theorem absorbed_take (m : Bytes) : absorbed (m.take (m.length / 64 * 64)) = absorbed m := by
  unfold absorbed
  have h1 : (m.take (m.length / 64 * 64)).length = m.length / 64 * 64 := by
    rw [List.length_take]
    omega
  have h2 : m.length / 64 * 64 / 64 = m.length / 64 := by omega
  rw [h1, h2, List.take_take]
  simp

/-- Writing to a digest with an empty buffer. -/
theorem writeRest_whole (m p : Bytes) (hm : m.length % 64 = 0) (len : Nat) :
    digest.writeRest (absorbed m) [] len p =
      ⟨absorbed (m ++ p), (m ++ p).drop ((m ++ p).length / 64 * 64), len⟩ := by
  have hmk : m.length = 64 * (m.length / 64) := by omega
  have hdrop : (m ++ p).drop ((m ++ p).length / 64 * 64) = p.drop (p.length / 64 * 64) := by
    have : (m ++ p).length / 64 * 64 = m.length + p.length / 64 * 64 := by
      rw [List.length_append]
      omega
    rw [this, List.drop_append]
  have habs : absorbed (m ++ p) =
      (blocks64 (p.length / 64) (p.take (p.length / 64 * 64))).foldl sha1Block (absorbed m) := by
    have h1 : (m ++ p).take ((m ++ p).length / 64 * 64) = m ++ p.take (p.length / 64 * 64) := by
      have : (m ++ p).length / 64 * 64 = m.length + p.length / 64 * 64 := by
        rw [List.length_append]
        omega
      rw [this, List.take_append]
    rw [← absorbed_take (m ++ p), h1]
    exact absorbed_append_whole m _ (m.length / 64) (p.length / 64) hmk (by
      rw [List.length_take]
      omega)
  unfold digest.writeRest chunk
  rw [hdrop, habs]
  by_cases hp : p.length ≥ 64
  · have hlen : (p.take (p.length / 64 * 64)).length / 64 = p.length / 64 := by
      rw [List.length_take]
      omega
    simp only [hp, if_true]
    rw [block_eq_foldl _ _ _ (Nat.div_le_self _ _), hlen]
    by_cases hr : 0 < (p.drop (p.length / 64 * 64)).length
    · simp only [hr, if_true]
    · have : p.drop (p.length / 64 * 64) = [] := List.length_eq_zero.mp (by omega)
      simp [this]
  · have h0 : p.length / 64 = 0 := by omega
    simp only [hp, if_false, h0, Nat.zero_mul, List.take_zero, List.drop_zero, blocks64,
      List.foldl_nil]
    by_cases hr : 0 < p.length
    · simp only [hr, if_true]
    · have : p = [] := List.length_eq_zero.mp (by omega)
      simp [this]

/-- Writes compose: writing `p` after `m` leaves the state of having written `m ++ p`. -/
theorem write_digestOf (m p : Bytes) : (digestOf m).Write p = digestOf (m ++ p) := by
  have hx : (m.drop (m.length / 64 * 64)).length = m.length % 64 := by
    rw [List.length_drop]
    omega
  have hlen : (m.length % w64 + p.length) % w64 = (m ++ p).length % w64 := by
    rw [List.length_append]
    unfold w64
    omega
  unfold digest.Write
  simp only [digestOf, hx, hlen]
  by_cases hr : 0 < m.length % 64
  · simp only [hr, if_true, chunk]
    by_cases hfull : p.length < 64 - m.length % 64
    · -- the buffer does not fill up
      have hn : min (64 - m.length % 64) p.length = p.length := by omega
      have hxl : (m.drop (m.length / 64 * 64) ++ p.take p.length).length ≠ 64 := by
        rw [List.length_append, hx, List.length_take]
        omega
      rw [hn]
      simp only [hxl, if_false, List.drop_length]
      unfold digest.writeRest chunk
      simp only [List.length_nil, ge_iff_le, Nat.not_succ_le_zero, if_false, Nat.lt_irrefl,
        List.take_length]
      have hdiv : (m ++ p).length / 64 = m.length / 64 := by
        rw [List.length_append]
        omega
      rw [absorbed_append_short m p (by omega), hdiv,
        List.drop_append_of_le_length (by omega)]
      simp
    · -- the buffer fills up and goes through `block`
      have hn : min (64 - m.length % 64) p.length = 64 - m.length % 64 := by omega
      rw [hn]
      have hxl : (m.drop (m.length / 64 * 64) ++ p.take (64 - m.length % 64)).length = 64 := by
        rw [List.length_append, hx, List.length_take]
        omega
      simp only [hxl, if_true]
      have hm1 : (m ++ p.take (64 - m.length % 64)).length = 64 * (m.length / 64 + 1) := by
        rw [List.length_append, List.length_take]
        omega
      have hsplit : m ++ p.take (64 - m.length % 64) =
          m.take (m.length / 64 * 64) ++
            (m.drop (m.length / 64 * 64) ++ p.take (64 - m.length % 64)) := by
        rw [← List.append_assoc, List.take_append_drop]
      have hb : block 64 (absorbed m)
          (m.drop (m.length / 64 * 64) ++ p.take (64 - m.length % 64)) =
          absorbed (m ++ p.take (64 - m.length % 64)) := by
        rw [block_eq_foldl _ _ _ (by omega), hxl, hsplit,
          absorbed_append_whole _ _ (m.length / 64) 1 (by rw [List.length_take]; omega) hxl,
          absorbed_take]
      rw [hb, writeRest_whole _ _ (by omega), List.append_assoc, List.take_append_drop]
  · have hm0 : m.length % 64 = 0 := by omega
    have hx0 : m.drop (m.length / 64 * 64) = [] := List.length_eq_zero.mp (by omega)
    simp only [hr, if_false, hx0]
    exact writeRest_whole m p hm0 _

theorem digestOf_nil : digestOf [] = sha1New := by
  decide

/-- The sum of a digest that has been written `m` is the SHA-1 of `m`. -/
theorem sum_digestOf (m : Bytes) : (digestOf m).Sum = sha1Sum m := by
  unfold digest.Sum
  simp only
  rw [write_digestOf]
  have hlen : (digestOf m).len % 64 = m.length % 64 := by
    simp only [digestOf, w64]
    omega
  have hbits : ((digestOf m).len * 8) % w64 = (8 * m.length) % w64 := by
    simp only [digestOf, w64]
    omega
  have hz : (if (digestOf m).len % 64 < 56 then 56 - (digestOf m).len % 64
      else 64 + 56 - (digestOf m).len % 64) - 1 = (119 - m.length % 64) % 64 := by
    rw [hlen]
    split <;> omega
  rw [hz, hbits]
  have hpad : m ++ ([0x80] ++ List.replicate ((119 - m.length % 64) % 64) 0 ++
      beBytes 8 ((8 * m.length) % w64)) = sha1Pad m := by
    simp [sha1Pad]
  rw [hpad]
  have hl : (sha1Pad m).length % 64 = 0 := by
    simp only [sha1Pad, List.length_append, List.length_cons, List.length_nil,
      List.length_replicate, length_beBytes]
    omega
  unfold sha1Sum
  simp only [digestOf]
  rw [absorbed_of_whole (sha1Pad m) ((sha1Pad m).length / 64) (by omega)]

theorem ioCopy_digestOf (n : Nat) (m src : Bytes) (hn : src.length ≤ n) :
    ioCopy n (digestOf m) src = digestOf (m ++ src) := by
  induction n generalizing m src with
  | zero =>
    have : src = [] := List.length_eq_zero.mp (by omega)
    subst this
    simp [ioCopy]
  | succ n ih =>
    unfold ioCopy
    by_cases hs : src = []
    · subst hs
      simp
    · have hpos : 0 < src.length := List.length_pos.mpr hs
      simp only [hs, if_false]
      rw [write_digestOf, ih _ _ (by rw [List.length_drop]; omega), List.append_assoc,
        List.take_append_drop]

/-- The hashing task computes the content hash of the specification. -/
theorem hashFile_eq (size : Nat) (content : Bytes) : hashFile size content = blobHash size content := by
  unfold hashFile fprintfBlob blobHash
  simp only
  rw [← digestOf_nil, write_digestOf, ioCopy_digestOf _ _ _ (Nat.le_refl _), sum_digestOf,
    fmtSbx_eq, fmtInteger_eq]
  simp

/-! ## Lemmas: path resolution -/

theorem splitPath_of_no_sep (l : List Char) (h : ∀ c ∈ l, c ≠ '/') : splitPath l = [l] := by
  induction l with
  | nil => rfl
  | cons c cs ih =>
    have hc : c ≠ '/' := h c (by simp)
    have hcs := ih fun d hd => h d (List.mem_cons_of_mem _ hd)
    simp [splitPath, hc, hcs]

theorem stepPath_fileName (dir : Dir) (p : String) (hp : fileName p) :
    stepPath dir p =
      match mapGet dir p with
      | none => .slot p
      | some (.file _ _) => .slot p
      | some (.symlink target) => .link target
      | some .dir => .fails := by
  obtain ⟨h1, h2, h3, h4⟩ := hp
  have hs := splitPath_of_no_sep p.data h2
  have hhead : p.data.head? ≠ some '/' := by
    intro h
    cases hd : p.data with
    | nil => exact h1 hd
    | cons a t =>
      rw [hd] at h
      simp only [List.head?_cons, Option.some.injEq] at h
      exact h2 a (by rw [hd]; simp) h
  have hmk : String.mk p.data = p := rfl
  unfold stepPath
  simp only [hs, List.getLast?_singleton, Option.some.injEq, h1, h3, h4, or_self, if_false, hhead]
  unfold stepComps
  simp only [h1, h3, h4, or_self, if_false, if_true, hmk]

theorem stepPath_dot (dir : Dir) : stepPath dir "." = .fails := by
  simp [stepPath, splitPath]

theorem stepPath_dotdot (dir : Dir) : stepPath dir ".." = .fails := by
  simp [stepPath, splitPath]

theorem stepPath_root (dir : Dir) : stepPath dir "/" = .fails := by
  simp [stepPath, splitPath]

/-- A base name is a file name, or nothing a file can be created under. -/
theorem base_cases (p : String) (h : filepathBase p = p) :
    fileName p ∨ ∀ dir : Dir, stepPath dir p = .fails := by
  by_cases h0 : p = ""
  · subst h0
    exact absurd h (by decide)
  · generalize hl : ((((p.data.reverse.dropWhile fun c => c == '/').reverse).reverse.takeWhile
        fun c => c != '/').reverse) = last at h
    have hb : filepathBase p = if last = [] then "/" else String.mk last := by
      unfold filepathBase
      simp only [h0, if_false, hl]
    rw [hb] at h
    by_cases hlast : last = []
    · simp only [hlast, if_true] at h
      right
      intro dir
      rw [← h]
      exact stepPath_root dir
    · simp only [hlast, if_false] at h
      have hsep : ∀ c ∈ last, c ≠ '/' := by
        intro c hc
        rw [← hl] at hc
        have := List.mem_takeWhile_imp (List.mem_reverse.mp hc)
        simpa using this
      by_cases hd : last = ['.']
      · right
        intro dir
        rw [← h, hd]
        exact stepPath_dot dir
      · by_cases hdd : last = ['.', '.']
        · right
          intro dir
          rw [← h, hdd]
          exact stepPath_dotdot dir
        · left
          rw [← h]
          exact ⟨hlast, hsep, hd, hdd⟩

theorem fileName_of_matchBin (n : String) (h : matchBin n = true) : fileName n := by
  unfold matchBin at h
  simp only [Bool.and_eq_true, Bool.not_eq_true', List.isSuffixOf_iff_suffix] at h
  obtain ⟨h1, h2⟩ := h
  obtain ⟨pre, hpre⟩ := h2
  have hlen : n.data.length = pre.length + 4 := by
    rw [← hpre, List.length_append]
    rfl
  refine ⟨?_, ?_, ?_, ?_⟩
  · intro h0
    rw [h0] at hlen
    simp at hlen
  · intro c hc hcs
    subst hcs
    have : n.data.contains '/' = true := by simpa using hc
    rw [h1] at this
    cases this
  · intro h0
    rw [h0] at hlen
    simp at hlen
  · intro h0
    rw [h0] at hlen
    simp at hlen

/-! ## Lemmas: the working directory -/

theorem mapGet_map_values {V : Type} (m : GoMap V) (g : V → V) (k : String) :
    mapGet (m.map fun e => (e.1, g e.2)) k = (mapGet m k).map g := by
  induction m with
  | nil => rfl
  | cons e rest ih =>
    by_cases h : e.1 = k
    · simp [mapGet, h]
    · simp [mapGet, h, ih]

theorem mapGet_append_singleton {V : Type} (m : GoMap V) (n k : String) (v : V)
    (hn : mapGet m n = none) :
    mapGet (m ++ [(n, v)]) k = if k = n then some v else mapGet m k := by
  rw [mapGet_append]
  by_cases hk : k = n
  · subst hk
    simp [hn, mapGet]
  · have : ¬ n = k := fun h => hk h.symm
    simp only [hk, if_false, mapGet, this]
    cases mapGet m k <;> rfl

theorem kindOf_overwrite (ino : Nat) (f : File) (e : Option Entry) :
    kindOf (e.map (overwrite ino f)) = kindOf e := by
  cases e with
  | none => rfl
  | some e =>
    cases e with
    | file i g =>
      simp only [Option.map_some', overwrite]
      split <;> rfl
    | symlink t => rfl
    | dir => rfl

theorem sameShape_refl (d : Dir) : SameShape d d := fun _ => rfl

theorem sameShape_symm {d1 d2 : Dir} (h : SameShape d1 d2) : SameShape d2 d1 :=
  fun n => (h n).symm

theorem sameShape_trans {d1 d2 d3 : Dir} (h1 : SameShape d1 d2) (h2 : SameShape d2 d3) :
    SameShape d1 d3 := fun n => (h1 n).trans (h2 n)

theorem writeFile_shape (dir dir1 : Dir) (n : String) (data : Bytes)
    (h : writeFile dir n data = some dir1) : SameShape dir dir1 := by
  unfold writeFile at h
  cases hg : mapGet dir n with
  | none =>
    simp only [hg, Option.some.injEq] at h
    subst h
    intro k
    rw [mapGet_append_singleton dir n k _ hg]
    by_cases hk : k = n
    · subst hk
      simp [hg, kindOf]
    · simp [hk]
  | some e =>
    cases e with
    | file ino f0 =>
      simp only [hg, Option.some.injEq] at h
      subst h
      intro k
      rw [mapGet_map_values, kindOf_overwrite]
    | symlink t => simp [hg] at h
    | dir => simp [hg] at h

theorem writeFile_isSome_shape (d1 d2 : Dir) (n : String) (x y : Bytes)
    (h : SameShape d1 d2) : (writeFile d1 n x).isSome = (writeFile d2 n y).isSome := by
  have hk := h n
  unfold writeFile
  cases h1 : mapGet d1 n with
  | none =>
    cases h2 : mapGet d2 n with
    | none => rfl
    | some e2 => cases e2 <;> simp [h1, h2, kindOf] at hk ⊢
  | some e1 =>
    cases h2 : mapGet d2 n with
    | none => cases e1 <;> simp [h1, h2, kindOf] at hk ⊢
    | some e2 => cases e1 <;> cases e2 <;> simp [h1, h2, kindOf] at hk ⊢

theorem writeFile_keys_mono (dir dir1 : Dir) (n : String) (data : Bytes)
    (h : writeFile dir n data = some dir1) (k : String) (hk : k ∈ mapKeys dir) :
    k ∈ mapKeys dir1 := by
  unfold writeFile at h
  cases hg : mapGet dir n with
  | none =>
    simp only [hg, Option.some.injEq] at h
    subst h
    simp only [mapKeys, List.map_append, List.mem_append]
    exact Or.inl hk
  | some e =>
    cases e with
    | file ino f0 =>
      simp only [hg, Option.some.injEq] at h
      subst h
      simpa [mapKeys, List.map_map, Function.comp] using hk
    | symlink t => simp [hg] at h
    | dir => simp [hg] at h

theorem stepComps_shape (d1 d2 : Dir) (h : SameShape d1 d2) (comps : List (List Char)) :
    stepComps d1 comps = stepComps d2 comps := by
  induction comps with
  | nil => rfl
  | cons c rest ih =>
    have hk := h (String.mk c)
    unfold stepComps
    rw [ih]
    cases h1 : mapGet d1 (String.mk c) with
    | none =>
      cases h2 : mapGet d2 (String.mk c) with
      | none => rfl
      | some e2 => cases e2 <;> simp [h1, h2, kindOf] at hk ⊢
    | some e1 =>
      cases h2 : mapGet d2 (String.mk c) with
      | none => cases e1 <;> simp [h1, h2, kindOf] at hk ⊢
      | some e2 =>
        cases e1 <;> cases e2 <;> simp only [h1, h2, kindOf, reduceCtorEq] at hk <;>
          first | rfl | (cases hk; rfl)

theorem stepPath_shape (d1 d2 : Dir) (h : SameShape d1 d2) (p : String) :
    stepPath d1 p = stepPath d2 p := by
  simp only [stepPath, stepComps_shape d1 d2 h]

theorem resolve_shape (env : Env) (d1 d2 : Dir) (h : SameShape d1 d2) (fuel : Nat)
    (p : String) : resolve env d1 fuel p = resolve env d2 fuel p := by
  induction fuel generalizing p with
  | zero => rfl
  | succ fuel ih =>
    unfold resolve
    rw [stepPath_shape d1 d2 h]
    cases stepPath d2 p with
    | slot n => rfl
    | link t => exact ih t
    | elsewhere => rfl
    | fails => rfl

theorem le_foldl_max (l : List Nat) (a : Nat) :
    a ≤ l.foldl max a ∧ ∀ i ∈ l, i ≤ l.foldl max a := by
  induction l generalizing a with
  | nil => simp
  | cons x rest ih =>
    obtain ⟨h1, h2⟩ := ih (max a x)
    refine ⟨le_trans (le_max_left a x) h1, ?_⟩
    intro i hi
    rcases List.mem_cons.mp hi with h | h
    · subst h
      exact le_trans (le_max_right a i) h1
    · exact h2 i h

theorem freshIno_not_mem (dir : Dir) : freshIno dir ∉ dir.map fun e => inoOf e.2 := by
  intro h
  have := (le_foldl_max (dir.map fun e => inoOf e.2) 0).2 _ h
  unfold freshIno at this
  omega

theorem nosym_get (dir : Dir) (hs : NoSymlinks dir) (n : String) (e : Entry)
    (h : mapGet dir n = some e) : isSymlink e = false :=
  hs (n, e) (mem_of_mapGet dir n e h)

/-- In a directory without symbolic links a file name leads to itself, when no
subdirectory has that name. -/
theorem stepPath_nosym (dir : Dir) (hs : NoSymlinks dir) (p : String) (hn : fileName p) :
    (stepPath dir p = .slot p ∧ kindOf (mapGet dir p) = .free) ∨ stepPath dir p = .fails := by
  rw [stepPath_fileName dir p hn]
  cases hg : mapGet dir p with
  | none => exact Or.inl ⟨rfl, rfl⟩
  | some e =>
    have := nosym_get dir hs p e hg
    cases e with
    | file i f => exact Or.inl ⟨rfl, rfl⟩
    | symlink t => simp [isSymlink] at this
    | dir => exact Or.inr rfl

theorem resolve_nosym (env : Env) (dir : Dir) (hs : NoSymlinks dir) (p : String)
    (hn : fileName p) :
    (resolve env dir maxLinks p = .slot p ∧ kindOf (mapGet dir p) = .free) ∨
      resolve env dir maxLinks p = .fails := by
  unfold maxLinks resolve
  rcases stepPath_nosym dir hs p hn with ⟨h, hk⟩ | h
  · rw [h]
    exact Or.inl ⟨rfl, hk⟩
  · rw [h]
    exact Or.inr rfl

theorem writeFile_keys (dir dir1 : Dir) (n : String) (data : Bytes)
    (h : writeFile dir n data = some dir1) (k : String) :
    k ∈ mapKeys dir1 ↔ k ∈ mapKeys dir ∨ k = n := by
  unfold writeFile at h
  cases hg : mapGet dir n with
  | none =>
    simp only [hg, Option.some.injEq] at h
    subst h
    simp [mapKeys]
  | some e =>
    have hn : n ∈ mapKeys dir := (mem_mapKeys_iff dir n).mpr ⟨e, hg⟩
    cases e with
    | file ino f0 =>
      simp only [hg, Option.some.injEq] at h
      subst h
      have : mapKeys (dir.map fun e => (e.1, overwrite ino ⟨data.length, data⟩ e.2)) =
          mapKeys dir := by
        simp [mapKeys, List.map_map, Function.comp]
      rw [this]
      constructor
      · exact Or.inl
      · rintro (h | h)
        · exact h
        · exact h ▸ hn
    | symlink t => simp [hg] at h
    | dir => simp [hg] at h

theorem isSymlink_overwrite (ino : Nat) (f : File) (e : Entry) :
    isSymlink (overwrite ino f e) = isSymlink e := by
  cases e with
  | file i g =>
    simp only [overwrite]
    split <;> rfl
  | symlink t => rfl
  | dir => rfl

theorem fileIno_overwrite (ino : Nat) (f : File) (e : Entry) :
    fileIno (overwrite ino f e) = fileIno e := by
  cases e with
  | file i g =>
    simp only [overwrite]
    split <;> rfl
  | symlink t => rfl
  | dir => rfl

theorem writeFile_nosym (dir dir1 : Dir) (n : String) (data : Bytes)
    (h : writeFile dir n data = some dir1) (hs : NoSymlinks dir) : NoSymlinks dir1 := by
  unfold writeFile at h
  cases hg : mapGet dir n with
  | none =>
    simp only [hg, Option.some.injEq] at h
    subst h
    intro e he
    rcases List.mem_append.mp he with h1 | h1
    · exact hs e h1
    · simp only [List.mem_singleton] at h1
      subst h1
      rfl
  | some e =>
    cases e with
    | file ino f0 =>
      simp only [hg, Option.some.injEq] at h
      subst h
      intro e he
      obtain ⟨e0, he0, rfl⟩ := List.mem_map.mp he
      simp only [isSymlink_overwrite]
      exact hs e0 he0
    | symlink t => simp [hg] at h
    | dir => simp [hg] at h

theorem distinctFiles_symm : Symmetric distinctFiles := by
  intro a b h
  unfold distinctFiles at h ⊢
  rcases h with h | h | h
  · exact Or.inr (Or.inl h)
  · exact Or.inl h
  · exact Or.inr (Or.inr fun h2 => h h2.symm)

theorem fileIno_ne_fresh (dir : Dir) (e : String × Entry) (he : e ∈ dir) :
    fileIno e.2 ≠ some (freshIno dir) := by
  intro h
  have hi : inoOf e.2 = freshIno dir := by
    cases h2 : e.2 with
    | file i f =>
      rw [h2] at h
      simp only [fileIno, Option.some.injEq] at h
      simp [inoOf, h]
    | symlink t => simp [h2, fileIno] at h
    | dir => simp [h2, fileIno] at h
  exact freshIno_not_mem dir (hi ▸ List.mem_map.mpr ⟨e, he, rfl⟩)

theorem unaliased_delete (dir : Dir) (hu : Unaliased dir) (k : String) :
    Unaliased (mapDelete dir k) := by
  unfold mapDelete
  exact ⟨fun e he => hu.1 e (List.mem_filter.mp he).1, hu.2.filter _⟩

/-- In a directory in which every file has one name, writing a name changes
that name and no other. -/
theorem writeFile_unaliased (dir dir1 : Dir) (hu : Unaliased dir) (n : String) (data : Bytes)
    (h : writeFile dir n data = some dir1) :
    Unaliased dir1 ∧
    ∃ ino, ∀ k, mapGet dir1 k =
      if k = n then some (.file ino ⟨data.length, data⟩) else mapGet dir k := by
  refine ⟨⟨writeFile_nosym dir dir1 n data h hu.1, ?_⟩, ?_⟩
  · unfold writeFile at h
    cases hg : mapGet dir n with
    | none =>
      simp only [hg, Option.some.injEq] at h
      subst h
      rw [List.pairwise_append]
      refine ⟨hu.2, List.pairwise_singleton _ _, ?_⟩
      intro a ha b hb
      simp only [List.mem_singleton] at hb
      subst hb
      have := fileIno_ne_fresh dir a ha
      unfold distinctFiles
      by_cases h0 : fileIno a.2 = none
      · exact Or.inl h0
      · exact Or.inr (Or.inr this)
    | some e =>
      cases e with
      | file ino f0 =>
        simp only [hg, Option.some.injEq] at h
        subst h
        rw [List.pairwise_map]
        apply hu.2.imp
        intro a b hab
        unfold distinctFiles at hab ⊢
        simpa only [fileIno_overwrite] using hab
      | symlink t => simp [hg] at h
      | dir => simp [hg] at h
  · unfold writeFile at h
    cases hg : mapGet dir n with
    | none =>
      simp only [hg, Option.some.injEq] at h
      subst h
      exact ⟨freshIno dir, fun k => mapGet_append_singleton dir n k _ hg⟩
    | some e =>
      cases e with
      | file ino f0 =>
        simp only [hg, Option.some.injEq] at h
        subst h
        refine ⟨ino, ?_⟩
        intro k
        rw [mapGet_map_values]
        by_cases hk : k = n
        · subst hk
          simp [hg, overwrite]
        · simp only [hk, if_false]
          cases hgk : mapGet dir k with
          | none => rfl
          | some ek =>
            cases ek with
            | file i g =>
              have hne : i ≠ ino := by
                intro hi
                subst hi
                have h1 := mem_of_mapGet dir k _ hgk
                have h2 := mem_of_mapGet dir n _ hg
                have hd := hu.2.forall distinctFiles_symm h1 h2
                  (fun heq => hk (congrArg Prod.fst heq))
                simp [distinctFiles, fileIno] at hd
              simp [overwrite, hne]
            | symlink t => rfl
            | dir => rfl
      | symlink t => simp [hg] at h
      | dir => simp [hg] at h

theorem writeFile_of_free (dir : Dir) (n : String) (data : Bytes)
    (hk : kindOf (mapGet dir n) = .free) : ∃ dir1, writeFile dir n data = some dir1 := by
  unfold writeFile
  cases hg : mapGet dir n with
  | none => exact ⟨_, rfl⟩
  | some e =>
    cases e with
    | file i f => exact ⟨_, rfl⟩
    | symlink t => simp [hg, kindOf] at hk
    | dir => simp [hg, kindOf] at hk

theorem readFile_nosym (env : Env) (dir : Dir) (hs : NoSymlinks dir) (p : String)
    (hn : fileName p) (f : File) (h : readFile env dir p = some f) : fileAt dir p = some f := by
  unfold readFile at h
  split at h
  · cases h
  · rcases resolve_nosym env dir hs p hn with ⟨hr, _⟩ | hr
    · rw [hr] at h
      simp only at h
      unfold fileAt
      cases hg : mapGet dir p with
      | none => simp [hg] at h
      | some e =>
        cases e with
        | file i g =>
          simp only [hg, Option.some.injEq] at h
          simp [h]
        | symlink t => simp [hg] at h
        | dir => simp [hg] at h
    · rw [hr] at h
      cases h

theorem length_sha1Sum (msg : Bytes) : (sha1Sum msg).length = 20 := by
  simp [sha1Sum, stateBytes, length_beBytes]

theorem length_blobHash (size : Nat) (b : Bytes) : (blobHash size b).length = 40 := by
  unfold blobHash
  rw [length_hexString, length_sha1Sum]

/-! ## Lemmas: the hashing group -/

theorem hashTask_ok (env : Env) (dir : Dir) (path : String) (f : File)
    (h : readFile env dir path = some f) :
    hashTask env dir path = .ok (filepathBase path, blobHash f.size f.content) := by
  simp [hashTask, h, hashFile_eq]

theorem hashTask_inv (env : Env) (dir : Dir) (path : String) (kv : String × String)
    (h : hashTask env dir path = .ok kv) :
    ∃ f, readFile env dir path = some f ∧ kv = (filepathBase path, blobHash f.size f.content) := by
  cases hf : readFile env dir path with
  | none => simp [hashTask, hf] at h
  | some f =>
    rw [hashTask_ok env dir path f hf] at h
    cases h
    exact ⟨f, rfl, rfl⟩

theorem hashAll_get (env : Env) (dir : Dir) (ps : List String) (m L : GoMap String)
    (hbase : ∀ p ∈ ps, filepathBase p = p) (h : hashAll env dir ps m = .ok L) :
    (∀ p ∈ ps, ∃ f, readFile env dir p = some f) ∧
    ∀ n, mapGet L n =
      if n ∈ ps then (readFile env dir n).map fun f => blobHash f.size f.content
      else mapGet m n := by
  induction ps generalizing m with
  | nil =>
    simp only [hashAll, Except.ok.injEq] at h
    subst h
    simp
  | cons p rest ih =>
    unfold hashAll at h
    cases ht : hashTask env dir p with
    | error e => simp [ht] at h
    | ok kv =>
      simp only [ht] at h
      obtain ⟨f, hf, hkv⟩ := hashTask_inv env dir p kv ht
      rw [hbase p (by simp)] at hkv
      subst hkv
      obtain ⟨ih1, ih2⟩ := ih _ (fun q hq => hbase q (List.mem_cons_of_mem _ hq)) h
      refine ⟨?_, ?_⟩
      · intro q hq
        rcases List.mem_cons.mp hq with hq | hq
        · exact ⟨f, hq ▸ hf⟩
        · exact ih1 q hq
      · intro n
        rw [ih2 n, mapGet_set]
        by_cases hn : n ∈ rest
        · simp [hn]
        · by_cases hp : n = p
          · subst hp
            simp [hn, hf]
          · simp [hn, hp]

theorem filepathBase_of_mem_glob (dir : Dir) (n : String) (h : n ∈ filepathGlob dir) :
    filepathBase n = n := by
  unfold filepathGlob at h
  exact filepathBase_of_matchBin n (List.mem_filter.mp h).2

theorem mem_filepathGlob (dir : Dir) (n : String) :
    n ∈ filepathGlob dir ↔ n ∈ mapKeys dir ∧ matchBin n = true := by
  unfold filepathGlob
  exact List.mem_filter

/-- The names of the local hash mapping of a run whose hashing group succeeded. -/
theorem mem_localHashes (env : Env) (dir : Dir) (L : GoMap String)
    (h : localHashes env dir = .ok L) (n : String) :
    n ∈ mapKeys L ↔ n ∈ mapKeys dir ∧ matchBin n = true := by
  obtain ⟨h1, h2⟩ := hashAll_get env dir _ [] L (fun p hp => filepathBase_of_mem_glob dir p hp) h
  rw [mem_mapKeys_iff, h2 n, ← mem_filepathGlob]
  by_cases hn : n ∈ filepathGlob dir
  · obtain ⟨f, hf⟩ := h1 n hn
    simp [hn, hf]
  · simp [hn, mapGet]

/-- The local hash mapping of a run on a directory without symbolic links:
exactly the matching names, each with the content hash of its file. -/
theorem localHashes_get_match (env : Env) (dir : Dir) (L : GoMap String) (hs : NoSymlinks dir)
    (hL : localHashes env dir = .ok L) (n : String) :
    mapGet L n = if matchBin n = true then (fileAt dir n).map fileHash else none := by
  obtain ⟨h1, h2⟩ := hashAll_get env dir _ [] L (fun p hp => filepathBase_of_mem_glob dir p hp) hL
  rw [h2 n]
  by_cases hm : matchBin n = true
  · by_cases hk : n ∈ mapKeys dir
    · have hg : n ∈ filepathGlob dir := (mem_filepathGlob dir n).mpr ⟨hk, hm⟩
      obtain ⟨f, hf⟩ := h1 n hg
      have hc := readFile_nosym env dir hs n (fileName_of_matchBin n hm) f hf
      simp [hg, hm, hf, hc, fileHash]
    · have hg : n ∉ filepathGlob dir := fun h => hk ((mem_filepathGlob dir n).mp h).1
      have : mapGet dir n = none := (not_mem_mapKeys_iff dir n).mp hk
      simp [hg, hm, fileAt, this, mapGet]
  · have hg : n ∉ filepathGlob dir := fun h => hm ((mem_filepathGlob dir n).mp h).2
    simp [hg, hm, mapGet]

/-! ## Lemmas: the fetch group -/

/-- A fetch task ends early with an error and the directory untouched, or it
gets a response and comes to open the file. -/
theorem fetchTask_reach (env : Env) (userPass : String) (d : Dir) (p : String)
    (c : contentEntry) :
    (∃ e, fetchTask env userPass d p c = (some e, d)) ∨
    ∃ resp, env.httpDo (downloadRequest userPass c) = .ok resp ∧
      fetchTask env userPass d p c =
        match resolve env d maxLinks p with
        | .fails => (some (.create p), d)
        | .outside => (copyError env p, d)
        | .slot name =>
          match writeFile d name (copied env p resp.body) with
          | none => (some (.create p), d)
          | some dir1 => (copyError env p, dir1) := by
  unfold fetchTask
  split
  · exact Or.inl ⟨_, rfl⟩
  · split
    · exact Or.inl ⟨_, rfl⟩
    · rename_i resp hresp
      split
      · exact Or.inl ⟨_, rfl⟩
      · exact Or.inr ⟨resp, hresp, rfl⟩

/-- What a fetch task leaves: the directory as it was, or the directory after one write. -/
theorem fetchTask_snd (env : Env) (userPass : String) (d : Dir) (p : String) (c : contentEntry) :
    (fetchTask env userPass d p c).2 = d ∨
    ∃ name data, writeFile d name data = some (fetchTask env userPass d p c).2 := by
  rcases fetchTask_reach env userPass d p c with ⟨e, h⟩ | ⟨resp, _, h⟩
  · rw [h]
    exact Or.inl rfl
  · rw [h]
    cases resolve env d maxLinks p with
    | fails => exact Or.inl rfl
    | outside => exact Or.inl rfl
    | slot name =>
      simp only
      cases hw : writeFile d name (copied env p resp.body) with
      | none => exact Or.inl rfl
      | some dir1 => exact Or.inr ⟨name, _, hw⟩

theorem fetchTask_shape (env : Env) (userPass : String) (d : Dir) (p : String)
    (c : contentEntry) : SameShape d (fetchTask env userPass d p c).2 := by
  rcases fetchTask_snd env userPass d p c with h | ⟨name, data, h⟩
  · rw [h]
    exact sameShape_refl d
  · exact writeFile_shape d _ name data h

theorem fetchTask_keys_mono (env : Env) (userPass : String) (d : Dir) (p : String)
    (c : contentEntry) (n : String) (hn : n ∈ mapKeys d) :
    n ∈ mapKeys (fetchTask env userPass d p c).2 := by
  rcases fetchTask_snd env userPass d p c with h | ⟨name, data, h⟩
  · rw [h]
    exact hn
  · exact writeFile_keys_mono d _ name data h n hn

/-- The error of a fetch task is the same on directories that differ in regular files only. -/
theorem fetchTask_fst_shape (env : Env) (userPass : String) (d1 d2 : Dir) (p : String)
    (c : contentEntry) (h : SameShape d1 d2) :
    (fetchTask env userPass d1 p c).1 = (fetchTask env userPass d2 p c).1 := by
  unfold fetchTask
  rw [resolve_shape env d1 d2 h]
  split
  · rfl
  · split
    · rfl
    · rename_i resp _
      split
      · rfl
      · cases resolve env d2 maxLinks p with
        | fails => rfl
        | outside => rfl
        | slot name =>
          simp only
          have hs := writeFile_isSome_shape d1 d2 name (copied env p resp.body)
            (copied env p resp.body) h
          cases h1 : writeFile d1 name (copied env p resp.body) with
          | none =>
            cases h2 : writeFile d2 name (copied env p resp.body) with
            | none => rfl
            | some _ => simp [h1, h2] at hs
          | some _ =>
            cases h2 : writeFile d2 name (copied env p resp.body) with
            | none => simp [h1, h2] at hs
            | some _ => rfl

theorem resolve_of_step_fails (env : Env) (d : Dir) (p : String)
    (h : stepPath d p = .fails) : resolve env d maxLinks p = .fails := by
  unfold maxLinks resolve
  rw [h]

theorem copyError_none (env : Env) (p : String) (body : Bytes) (h : copyError env p = none) :
    copied env p body = body := by
  unfold copyError at h
  unfold copied
  cases hc : env.copyStops p with
  | none => rfl
  | some k => simp [hc] at h

/-- A fetch task for a base name on a directory without symbolic links: it
ends with an error and the directory untouched, or it writes the file of that name. -/
theorem fetchTask_base (env : Env) (userPass : String) (d : Dir) (p : String)
    (c : contentEntry) (hs : NoSymlinks d) (hb : filepathBase p = p) :
    (∃ e, fetchTask env userPass d p c = (some e, d)) ∨
    ∃ resp dir1, env.httpDo (downloadRequest userPass c) = .ok resp ∧
      writeFile d p (copied env p resp.body) = some dir1 ∧
      fetchTask env userPass d p c = (copyError env p, dir1) := by
  rcases fetchTask_reach env userPass d p c with h | ⟨resp, hresp, h⟩
  · exact Or.inl h
  · rcases base_cases p hb with hn | hf
    · rcases resolve_nosym env d hs p hn with ⟨hr, hk⟩ | hr
      · obtain ⟨dir1, hw⟩ := writeFile_of_free d p (copied env p resp.body) hk
        right
        refine ⟨resp, dir1, hresp, hw, ?_⟩
        rw [h, hr]
        simp only [hw]
      · left
        rw [h, hr]
        exact ⟨_, rfl⟩
    · left
      rw [h, resolve_of_step_fails env d p (hf d)]
      exact ⟨_, rfl⟩

/-- The names a fetch task for a base name leaves, in a directory without symbolic links. -/
theorem fetchTask_names (env : Env) (userPass : String) (d : Dir) (p : String)
    (c : contentEntry) (hs : NoSymlinks d) (hb : filepathBase p = p) :
    NoSymlinks (fetchTask env userPass d p c).2 ∧
    (∀ k ∈ mapKeys (fetchTask env userPass d p c).2, k ∈ mapKeys d ∨ k = p) ∧
    ((fetchTask env userPass d p c).1 = none → p ∈ mapKeys (fetchTask env userPass d p c).2) := by
  rcases fetchTask_base env userPass d p c hs hb with ⟨e, h⟩ | ⟨resp, dir1, _, hw, h⟩
  · rw [h]
    exact ⟨hs, fun k hk => Or.inl hk, fun h0 => by simp at h0⟩
  · rw [h]
    refine ⟨writeFile_nosym d dir1 p _ hw hs, ?_, ?_⟩
    · intro k hk
      exact (writeFile_keys d dir1 p _ hw k).mp hk
    · intro _
      exact (writeFile_keys d dir1 p _ hw p).mpr (Or.inr rfl)

/-- A fetch task for a base name on a directory in which every file has one
name: the directory stays such, no other name changes, and after a success the
name holds the body of the response. -/
theorem fetchTask_unaliased (env : Env) (userPass : String) (d : Dir) (p : String)
    (c : contentEntry) (hu : Unaliased d) (hb : filepathBase p = p) :
    Unaliased (fetchTask env userPass d p c).2 ∧
    (∀ k, k ≠ p → mapGet (fetchTask env userPass d p c).2 k = mapGet d k) ∧
    ((fetchTask env userPass d p c).1 = none →
      ∃ resp ino, env.httpDo (downloadRequest userPass c) = .ok resp ∧
        mapGet (fetchTask env userPass d p c).2 p =
          some (.file ino ⟨resp.body.length, resp.body⟩)) := by
  rcases fetchTask_base env userPass d p c hu.1 hb with ⟨e, h⟩ | ⟨resp, dir1, hresp, hw, h⟩
  · rw [h]
    exact ⟨hu, fun _ _ => rfl, fun h0 => by simp at h0⟩
  · rw [h]
    obtain ⟨hu1, ino, hget⟩ := writeFile_unaliased d dir1 hu p _ hw
    refine ⟨hu1, ?_, ?_⟩
    · intro k hk
      rw [hget k]
      simp [hk]
    · intro h0
      refine ⟨resp, ino, hresp, ?_⟩
      rw [hget p, copyError_none env p resp.body h0]
      simp

theorem fetchAll_keys_mono (env : Env) (userPass : String) (ts : List (String × contentEntry))
    (d : Dir) (n : String) (hn : n ∈ mapKeys d) :
    n ∈ mapKeys (fetchAll env userPass ts d).2 := by
  induction ts generalizing d with
  | nil => exact hn
  | cons kv rest ih =>
    simp only [fetchAll]
    exact ih _ (fetchTask_keys_mono env userPass d kv.1 kv.2 n hn)

/-- If the group reports no error, no task of it returns one, on any directory
that differs from the one the group started on in regular files only. -/
theorem fetchAll_fst_shape (env : Env) (userPass : String) (ts : List (String × contentEntry))
    (d0 : Dir) (h : (fetchAll env userPass ts d0).1 = none) :
    ∀ kv ∈ ts, ∀ d, SameShape d0 d → (fetchTask env userPass d kv.1 kv.2).1 = none := by
  induction ts generalizing d0 with
  | nil => simp
  | cons e rest ih =>
    simp only [fetchAll] at h
    have hhead : (fetchTask env userPass d0 e.1 e.2).1 = none := by
      cases h1 : (fetchTask env userPass d0 e.1 e.2).1 with
      | none => rfl
      | some x => simp [h1, Option.orElse] at h
    have htail : (fetchAll env userPass rest (fetchTask env userPass d0 e.1 e.2).2).1 = none := by
      simpa [hhead, Option.orElse] using h
    intro kv hkv d hd
    rcases List.mem_cons.mp hkv with hk | hk
    · subst hk
      rw [← fetchTask_fst_shape env userPass d0 d kv.1 kv.2 hd]
      exact hhead
    · exact ih _ htail kv hk d
        (sameShape_trans (sameShape_symm (fetchTask_shape env userPass d0 e.1 e.2)) hd)

theorem fetchAll_fst_none (env : Env) (userPass : String) (ts : List (String × contentEntry))
    (d : Dir) (h : (fetchAll env userPass ts d).1 = none) (kv : String × contentEntry)
    (rest : List (String × contentEntry)) (hts : ts = kv :: rest) :
    (fetchTask env userPass d kv.1 kv.2).1 = none ∧
    (fetchAll env userPass rest (fetchTask env userPass d kv.1 kv.2).2).1 = none := by
  subst hts
  simp only [fetchAll] at h
  cases h1 : (fetchTask env userPass d kv.1 kv.2).1 with
  | none => exact ⟨rfl, by simpa [h1, Option.orElse] using h⟩
  | some x => simp [h1, Option.orElse] at h

/-- The names the fetch group for base names leaves, in a directory without
symbolic links: those that were there and those of the group; after a success,
all of the group. -/
theorem fetchAll_names (env : Env) (userPass : String) (ts : List (String × contentEntry))
    (d : Dir) (hs : NoSymlinks d) (hb : ∀ kv ∈ ts, filepathBase kv.1 = kv.1) :
    NoSymlinks (fetchAll env userPass ts d).2 ∧
    (∀ k ∈ mapKeys (fetchAll env userPass ts d).2, k ∈ mapKeys d ∨ k ∈ ts.map Prod.fst) ∧
    ((fetchAll env userPass ts d).1 = none →
      ∀ kv ∈ ts, kv.1 ∈ mapKeys (fetchAll env userPass ts d).2) := by
  induction ts generalizing d with
  | nil => exact ⟨hs, fun k hk => Or.inl hk, fun _ => by simp⟩
  | cons e rest ih =>
    obtain ⟨hs1, hsub, hin⟩ := fetchTask_names env userPass d e.1 e.2 hs (hb e (by simp))
    obtain ⟨ih1, ih2, ih3⟩ := ih _ hs1 fun kv hkv => hb kv (List.mem_cons_of_mem _ hkv)
    simp only [fetchAll]
    refine ⟨ih1, ?_, ?_⟩
    · intro k hk
      rcases ih2 k hk with h | h
      · rcases hsub k h with h2 | h2
        · exact Or.inl h2
        · exact Or.inr (by simp [h2])
      · exact Or.inr (by
          simp only [List.map_cons, List.mem_cons]
          exact Or.inr h)
    · intro hok kv hkv
      have hok2 : (fetchAll env userPass (e :: rest) d).1 = none := by
        simpa only [fetchAll] using hok
      obtain ⟨hhead, htail⟩ := fetchAll_fst_none env userPass _ d hok2 e rest rfl
      rcases List.mem_cons.mp hkv with h | h
      · subst h
        exact fetchAll_keys_mono env userPass rest _ kv.1 (hin hhead)
      · exact ih3 htail kv h

/-- The fetch group for base names on a directory in which every file has one
name: the directory stays such and no name outside the group changes. -/
theorem fetchAll_unaliased (env : Env) (userPass : String) (ts : List (String × contentEntry))
    (d : Dir) (hu : Unaliased d) (hb : ∀ kv ∈ ts, filepathBase kv.1 = kv.1) :
    Unaliased (fetchAll env userPass ts d).2 ∧
    ∀ k, k ∉ ts.map Prod.fst → mapGet (fetchAll env userPass ts d).2 k = mapGet d k := by
  induction ts generalizing d with
  | nil => exact ⟨hu, fun _ _ => rfl⟩
  | cons e rest ih =>
    obtain ⟨hu1, hother, _⟩ := fetchTask_unaliased env userPass d e.1 e.2 hu (hb e (by simp))
    obtain ⟨ih1, ih2⟩ := ih _ hu1 fun kv hkv => hb kv (List.mem_cons_of_mem _ hkv)
    simp only [fetchAll]
    refine ⟨ih1, ?_⟩
    intro k hk
    simp only [List.map_cons, List.mem_cons, not_or] at hk
    rw [ih2 k hk.2, hother k hk.1]

theorem fetchAll_ok_get (env : Env) (userPass : String) (ts : List (String × contentEntry))
    (d : Dir) (hu : Unaliased d) (hb : ∀ kv ∈ ts, filepathBase kv.1 = kv.1)
    (hok : (fetchAll env userPass ts d).1 = none) (hnd : (ts.map Prod.fst).Nodup) :
    ∀ kv ∈ ts, ∃ resp ino, env.httpDo (downloadRequest userPass kv.2) = .ok resp ∧
      mapGet (fetchAll env userPass ts d).2 kv.1 =
        some (.file ino ⟨resp.body.length, resp.body⟩) := by
  induction ts generalizing d with
  | nil => simp
  | cons e rest ih =>
    simp only [List.map_cons, List.nodup_cons] at hnd
    obtain ⟨hhead, htail⟩ := fetchAll_fst_none env userPass _ d hok e rest rfl
    obtain ⟨hu1, _, hget⟩ := fetchTask_unaliased env userPass d e.1 e.2 hu (hb e (by simp))
    have hb2 : ∀ kv ∈ rest, filepathBase kv.1 = kv.1 :=
      fun kv hkv => hb kv (List.mem_cons_of_mem _ hkv)
    intro kv hkv
    rcases List.mem_cons.mp hkv with h | h
    · subst h
      obtain ⟨resp, ino, hresp, hg⟩ := hget hhead
      refine ⟨resp, ino, hresp, ?_⟩
      simp only [fetchAll]
      rw [(fetchAll_unaliased env userPass rest _ hu1 hb2).2 kv.1 hnd.1, hg]
    · simp only [fetchAll]
      exact ih _ hu1 hb2 htail hnd.2 kv h

/-! ## Lemmas: the removal loop -/

theorem osRemove_ok (env : Env) (d d1 : Dir) (n : String) (h : osRemove env d n = .ok d1) :
    d1 = mapDelete d n := by
  unfold osRemove at h
  split at h
  · cases h
  · cases h
    rfl

theorem removeAll_calls_sub (env : Env) (ns : List String) (d : Dir) :
    ∀ n ∈ (removeAll env ns d).removeCalls, n ∈ ns := by
  induction ns generalizing d with
  | nil => simp [removeAll]
  | cons a rest ih =>
    intro n hn
    unfold removeAll at hn
    split at hn
    · simp only [List.mem_singleton] at hn
      simp [hn]
    · simp only [List.mem_cons] at hn
      rcases hn with h | h
      · simp [h]
      · exact List.mem_cons_of_mem _ (ih _ n h)

theorem removeAll_get_other (env : Env) (ns : List String) (d : Dir) (n : String)
    (hn : n ∉ ns) : mapGet (removeAll env ns d).dir n = mapGet d n := by
  induction ns generalizing d with
  | nil => rfl
  | cons a rest ih =>
    simp only [List.mem_cons, not_or] at hn
    unfold removeAll
    split
    · rfl
    · rename_i d1 h1
      simp only
      rw [ih _ hn.2, osRemove_ok env d d1 a h1, mapGet_delete]
      simp [hn.1]

theorem removeAll_ok (env : Env) (ns : List String) (d : Dir)
    (hok : (removeAll env ns d).fatal = none) :
    (removeAll env ns d).removeCalls = ns ∧
    ∀ n, mapGet (removeAll env ns d).dir n = if n ∈ ns then none else mapGet d n := by
  induction ns generalizing d with
  | nil => simp [removeAll]
  | cons a rest ih =>
    unfold removeAll at hok ⊢
    split
    · rename_i e h1
      simp [h1] at hok
    · rename_i d1 h1
      simp only [h1] at hok
      obtain ⟨ih1, ih2⟩ := ih d1 hok
      refine ⟨by simp [ih1], ?_⟩
      intro n
      simp only
      rw [ih2 n, osRemove_ok env d d1 a h1, mapGet_delete]
      by_cases hr : n ∈ rest
      · simp [hr]
      · by_cases ha : n = a
        · simp [ha]
        · simp [hr, ha]

theorem removeAll_unaliased (env : Env) (ns : List String) (d : Dir) (hu : Unaliased d) :
    Unaliased (removeAll env ns d).dir := by
  induction ns generalizing d with
  | nil => exact hu
  | cons a rest ih =>
    unfold removeAll
    split
    · exact hu
    · rename_i d1 h1
      simp only
      apply ih
      rw [osRemove_ok env d d1 a h1]
      exact unaliased_delete d hu a

/-! ## Lemmas: the reconcile loop -/

theorem reconcileStep_hashes (st : LoopState) (kv : String × contentEntry) :
    (reconcileStep st kv).firmwareHashes = mapDelete st.firmwareHashes (filepathBase kv.1) := by
  unfold reconcileStep
  dsimp only
  split
  · split <;> rfl
  · rfl

theorem reconcileStep_scheduled (st : LoopState) (kv : String × contentEntry) :
    (reconcileStep st kv).scheduled =
      if mapGet st.firmwareHashes (filepathBase kv.1) = some kv.2.Sha then st.scheduled
      else st.scheduled ++ [kv] := by
  unfold reconcileStep
  dsimp only
  split
  · rename_i localHash hm
    by_cases hh : localHash = kv.2.Sha
    · simp [hm, hh]
    · simp [hm, hh]
  · rename_i hm
    simp [hm]

theorem foldl_reconcile_get (order : GoMap contentEntry) (st : LoopState) (n : String) :
    mapGet (order.foldl reconcileStep st).firmwareHashes n =
      if n ∈ order.map (fun kv => filepathBase kv.1) then none
      else mapGet st.firmwareHashes n := by
  induction order generalizing st with
  | nil => simp
  | cons kv rest ih =>
    rw [List.foldl_cons, ih, reconcileStep_hashes, mapGet_delete]
    by_cases h1 : n ∈ rest.map (fun kv => filepathBase kv.1)
    · simp [h1]
    · by_cases h2 : n = filepathBase kv.1
      · simp [h2]
      · simp [h1, h2]

theorem foldl_reconcile_scheduled_mem (order : GoMap contentEntry) (st : LoopState)
    (kv : String × contentEntry) (h : kv ∈ (order.foldl reconcileStep st).scheduled) :
    kv ∈ st.scheduled ∨ kv ∈ order := by
  induction order generalizing st with
  | nil => exact Or.inl (by simpa using h)
  | cons e rest ih =>
    rw [List.foldl_cons] at h
    rcases ih _ h with h1 | h1
    · rw [reconcileStep_scheduled] at h1
      split at h1
      · exact Or.inl h1
      · rcases List.mem_append.mp h1 with h2 | h2
        · exact Or.inl h2
        · exact Or.inr (by simp at h2; simp [h2])
    · exact Or.inr (List.mem_cons_of_mem _ h1)

/-- When no two manifest names share a base name, the loop schedules exactly
the entries whose local hash is absent or different. -/
theorem foldl_reconcile_scheduled (order : GoMap contentEntry) (st : LoopState)
    (hnd : (order.map fun kv => filepathBase kv.1).Nodup) :
    (order.foldl reconcileStep st).scheduled =
      st.scheduled ++ order.filter fun kv =>
        decide (mapGet st.firmwareHashes (filepathBase kv.1) ≠ some kv.2.Sha) := by
  induction order generalizing st with
  | nil => simp
  | cons e rest ih =>
    simp only [List.map_cons, List.nodup_cons] at hnd
    rw [List.foldl_cons, ih _ hnd.2, reconcileStep_scheduled, reconcileStep_hashes]
    have hcongr : (rest.filter fun kv =>
          decide (mapGet (mapDelete st.firmwareHashes (filepathBase e.1)) (filepathBase kv.1)
            ≠ some kv.2.Sha)) =
        rest.filter fun kv =>
          decide (mapGet st.firmwareHashes (filepathBase kv.1) ≠ some kv.2.Sha) := by
      apply List.filter_congr
      intro kv hkv
      have hne : filepathBase kv.1 ≠ filepathBase e.1 := by
        intro heq
        apply hnd.1
        rw [← heq]
        exact List.mem_map.mpr ⟨kv, hkv, rfl⟩
      rw [mapGet_delete]
      simp [hne]
    rw [hcongr]
    by_cases hc : mapGet st.firmwareHashes (filepathBase e.1) = some e.2.Sha
    · simp [hc, List.filter]
    · simp [hc, List.filter]

/-- An entry whose base name no other entry shares and whose local hash equals
its sha is never scheduled, in whatever order the loop visits the manifest. -/
theorem foldl_reconcile_skips (p : String) (c : contentEntry) (order : GoMap contentEntry)
    (st : LoopState) (hnd : (mapKeys order).Nodup) (hmem : (p, c) ∈ order)
    (huniq : ∀ q ∈ mapKeys order, filepathBase q = filepathBase p → q = p)
    (hget : mapGet st.firmwareHashes (filepathBase p) = some c.Sha) :
    ∀ kv ∈ (order.foldl reconcileStep st).scheduled, kv ∈ st.scheduled ∨ kv.1 ≠ p := by
  induction order generalizing st with
  | nil => simp at hmem
  | cons e rest ih =>
    intro kv hkv
    rw [List.foldl_cons] at hkv
    simp only [mapKeys, List.map_cons, List.nodup_cons] at hnd
    by_cases hep : e.1 = p
    · have hec : e = (p, c) := by
        rcases List.mem_cons.mp hmem with h | h
        · exact h.symm
        · exact absurd (List.mem_map.mpr ⟨(p, c), h, rfl⟩) (hep ▸ hnd.1)
      rcases foldl_reconcile_scheduled_mem rest _ kv hkv with h | h
      · rw [reconcileStep_scheduled, hec] at h
        simp only [hget, if_true] at h
        exact Or.inl h
      · right
        intro hkp
        apply hnd.1
        rw [hep, ← hkp]
        exact List.mem_map.mpr ⟨kv, h, rfl⟩
    · have hmem2 : (p, c) ∈ rest := by
        rcases List.mem_cons.mp hmem with h | h
        · exact absurd (congrArg Prod.fst h).symm hep
        · exact h
      have hbne : filepathBase p ≠ filepathBase e.1 := by
        intro heq
        exact hep (huniq e.1 (by simp [mapKeys]) heq.symm)
      have hget2 : mapGet (reconcileStep st e).firmwareHashes (filepathBase p) = some c.Sha := by
        rw [reconcileStep_hashes, mapGet_delete]
        simp [hbne, hget]
      have huniq2 : ∀ q ∈ mapKeys rest, filepathBase q = filepathBase p → q = p :=
        fun q hq => huniq q (by
          simp only [mapKeys, List.map_cons, List.mem_cons]
          exact Or.inr hq)
      rcases ih _ hnd.2 hmem2 huniq2 hget2 kv hkv with h | h
      · rw [reconcileStep_scheduled] at h
        split at h
        · exact Or.inl h
        · rcases List.mem_append.mp h with h2 | h2
          · exact Or.inl h2
          · right
            simp only [List.mem_singleton] at h2
            rw [h2]
            exact hep
      · exact Or.inr h

/-- The reconcile loop on a manifest whose names are base names. -/
theorem reconcile_base (L : GoMap String) (R order : GoMap contentEntry)
    (hperm : order.Perm R) (hnd : (mapKeys R).Nodup)
    (hbase : ∀ p ∈ mapKeys R, filepathBase p = p) :
    (∀ kv, kv ∈ (reconcile order L).scheduled ↔
      mapGet R kv.1 = some kv.2 ∧ mapGet L kv.1 ≠ some kv.2.Sha) ∧
    ((reconcile order L).scheduled.map Prod.fst).Nodup ∧
    ∀ n, mapGet (reconcile order L).firmwareHashes n =
      if n ∈ mapKeys R then none else mapGet L n := by
  have hkeys : ∀ kv ∈ order, kv.1 ∈ mapKeys R := fun kv hkv =>
    List.mem_map.mpr ⟨kv, hperm.mem_iff.mp hkv, rfl⟩
  have hb : (order.map fun kv => filepathBase kv.1) = order.map Prod.fst :=
    List.map_congr_left fun kv hkv => hbase kv.1 (hkeys kv hkv)
  have hnd2 : (order.map Prod.fst).Nodup := (hperm.map Prod.fst).nodup_iff.mpr hnd
  have hs := foldl_reconcile_scheduled order ⟨L, []⟩ (by rw [hb]; exact hnd2)
  simp only [List.nil_append] at hs
  refine ⟨?_, ?_, ?_⟩
  · intro kv
    unfold reconcile
    rw [hs, List.mem_filter]
    constructor
    · rintro ⟨h1, h2⟩
      rw [hbase kv.1 (hkeys kv h1)] at h2
      exact ⟨mapGet_of_mem R kv.1 kv.2 hnd (hperm.mem_iff.mp h1), by simpa using h2⟩
    · rintro ⟨h1, h2⟩
      have hmem : kv ∈ order := hperm.mem_iff.mpr (mem_of_mapGet R kv.1 kv.2 h1)
      refine ⟨hmem, ?_⟩
      rw [hbase kv.1 (hkeys kv hmem)]
      simpa using h2
  · unfold reconcile
    rw [hs]
    exact ((List.filter_sublist order).map Prod.fst).nodup hnd2
  · intro n
    unfold reconcile
    rw [foldl_reconcile_get, hb]
    have : n ∈ order.map Prod.fst ↔ n ∈ mapKeys R := (hperm.map Prod.fst).mem_iff
    simp only [this]

theorem mem_names_of_mem_manifestMap_aux (cs : List contentEntry) (m : GoMap contentEntry)
    (p : String) (hp : p ∈ mapKeys (cs.foldl (fun result c => mapSet result c.Name c) m)) :
    p ∈ mapKeys m ∨ ∃ c ∈ cs, c.Name = p := by
  induction cs generalizing m with
  | nil => exact Or.inl (by simpa using hp)
  | cons c rest ih =>
    rw [List.foldl_cons] at hp
    rcases ih _ hp with h | ⟨c2, hc2, h⟩
    · rw [mem_mapKeys_set] at h
      rcases h with h | h
      · exact Or.inr ⟨c, by simp, h.symm⟩
      · exact Or.inl h
    · exact Or.inr ⟨c2, List.mem_cons_of_mem _ hc2, h⟩

theorem mem_names_of_mem_manifestMap (cs : List contentEntry) (p : String)
    (hp : p ∈ mapKeys (manifestMap cs)) : ∃ c ∈ cs, c.Name = p := by
  rcases mem_names_of_mem_manifestMap_aux cs [] p hp with h | h
  · simp [mapKeys] at h
  · exact h

theorem plan_partition (L : GoMap String) (R : GoMap contentEntry) (n : String)
    (hn : n ∈ mapKeys L ∨ n ∈ mapKeys R) :
    (isCurrent L R n ∧ ¬ needsFetch L R n ∧ ¬ isOrphaned L R n) ∨
    (¬ isCurrent L R n ∧ needsFetch L R n ∧ ¬ isOrphaned L R n) ∨
    (¬ isCurrent L R n ∧ ¬ needsFetch L R n ∧ isOrphaned L R n) := by
  unfold isCurrent needsFetch isOrphaned
  cases hr : mapGet R n with
  | none =>
    have hnr : n ∉ mapKeys R := (not_mem_mapKeys_iff R n).mpr hr
    right; right
    refine ⟨by simp, by simp, ?_, hnr⟩
    rcases hn with h | h
    · exact h
    · exact absurd h hnr
  | some c =>
    have hmr : n ∈ mapKeys R := (mem_mapKeys_iff R n).mpr ⟨c, hr⟩
    by_cases hl : mapGet L n = some c.Sha
    · left
      refine ⟨⟨c, rfl, hl⟩, ?_, fun h => h.2 hmr⟩
      rintro ⟨c2, h1, h2⟩
      cases h1
      exact h2 hl
    · right; left
      refine ⟨?_, ⟨c, rfl, hl⟩, fun h => h.2 hmr⟩
      rintro ⟨c2, h1, h2⟩
      cases h1
      exact hl h2

/-! ## Lemmas: a run of `main` -/

theorem manifest_nodup (env : Env) (R : GoMap contentEntry) (hR : manifest env = .ok R) :
    (mapKeys R).Nodup := by
  unfold manifest githubContents at hR
  split at hR
  · cases hR
  · split at hR
    · cases hR
    · split at hR
      · cases hR
      · split at hR
        · cases hR
        · cases hR
          exact nodup_manifestMap _

theorem main_hash_error (env : Env) (dir : Dir) (e : Error) (h : localHashes env dir = .error e) :
    main env dir = ⟨some e, dir, [], []⟩ := by
  unfold localHashes at h
  unfold main
  simp only [h]

theorem main_manifest_error (env : Env) (dir : Dir) (e : Error) (h : manifest env = .error e) :
    (main env dir).fatal ≠ none ∧ (main env dir).dir = dir ∧ (main env dir).scheduled = [] ∧
      (main env dir).removeCalls = [] := by
  unfold manifest userPassOf at h
  unfold main
  cases hL : hashAll env dir (filepathGlob dir) [] with
  | error e2 => simp [hL]
  | ok L => simp [hL, h]

theorem main_run (env : Env) (dir : Dir) (L : GoMap String) (R : GoMap contentEntry)
    (hL : localHashes env dir = .ok L) (hR : manifest env = .ok R) :
    main env dir =
      match (fetchAll env (userPassOf env) (reconcile (env.rangeContents R) L).scheduled dir).1 with
      | some e =>
        ⟨some e, (fetchAll env (userPassOf env) (reconcile (env.rangeContents R) L).scheduled dir).2,
          (reconcile (env.rangeContents R) L).scheduled, []⟩
      | none =>
        ⟨(removeAll env (mapKeys (env.rangeLeftover (reconcile (env.rangeContents R) L).firmwareHashes))
            (fetchAll env (userPassOf env) (reconcile (env.rangeContents R) L).scheduled dir).2).fatal,
         (removeAll env (mapKeys (env.rangeLeftover (reconcile (env.rangeContents R) L).firmwareHashes))
            (fetchAll env (userPassOf env) (reconcile (env.rangeContents R) L).scheduled dir).2).dir,
         (reconcile (env.rangeContents R) L).scheduled,
         (removeAll env (mapKeys (env.rangeLeftover (reconcile (env.rangeContents R) L).firmwareHashes))
            (fetchAll env (userPassOf env) (reconcile (env.rangeContents R) L).scheduled dir).2).removeCalls⟩ := by
  unfold localHashes at hL
  unfold manifest userPassOf at hR
  unfold main userPassOf
  simp only [hL, hR]

theorem main_scheduled (env : Env) (dir : Dir) (L : GoMap String) (R : GoMap contentEntry)
    (hL : localHashes env dir = .ok L) (hR : manifest env = .ok R) :
    (main env dir).scheduled = (reconcile (env.rangeContents R) L).scheduled := by
  rw [main_run env dir L R hL hR]
  split <;> rfl

theorem main_ok_localHashes (env : Env) (dir : Dir) (hok : (main env dir).fatal = none) :
    ∃ L, localHashes env dir = .ok L := by
  cases h : localHashes env dir with
  | ok L => exact ⟨L, rfl⟩
  | error e =>
    rw [main_hash_error env dir e h] at hok
    cases hok

theorem mem_mapKeys_rangeLeftover (env : Env) (m : GoMap String) (n : String) :
    n ∈ mapKeys (env.rangeLeftover m) ↔ n ∈ mapKeys m := by
  unfold mapKeys
  exact ((env.rangeLeftover_perm m).map Prod.fst).mem_iff

theorem main_ok_run (env : Env) (dir : Dir) (L : GoMap String) (R : GoMap contentEntry)
    (hL : localHashes env dir = .ok L) (hR : manifest env = .ok R)
    (hok : (main env dir).fatal = none) :
    (fetchAll env (userPassOf env) (reconcile (env.rangeContents R) L).scheduled dir).1 = none ∧
    (∀ n, n ∈ (main env dir).removeCalls ↔
      n ∈ mapKeys (reconcile (env.rangeContents R) L).firmwareHashes) ∧
    ∀ n, mapGet (main env dir).dir n =
      if n ∈ mapKeys (reconcile (env.rangeContents R) L).firmwareHashes then none
      else mapGet
        (fetchAll env (userPassOf env) (reconcile (env.rangeContents R) L).scheduled dir).2 n := by
  rw [main_run env dir L R hL hR] at hok ⊢
  split at hok
  · cases hok
  · rename_i hf
    simp only [hf]
    simp only at hok
    obtain ⟨h1, h2⟩ := removeAll_ok env _ _ hok
    refine ⟨trivial, ?_, ?_⟩
    · intro n
      rw [h1, mem_mapKeys_rangeLeftover]
    · intro n
      rw [h2 n]
      simp only [mem_mapKeys_rangeLeftover]

theorem main_removeCalls_sub (env : Env) (dir : Dir) (L : GoMap String) (R : GoMap contentEntry)
    (hL : localHashes env dir = .ok L) (hR : manifest env = .ok R) :
    ∀ n ∈ (main env dir).removeCalls,
      n ∈ mapKeys (reconcile (env.rangeContents R) L).firmwareHashes := by
  intro n hn
  rw [main_run env dir L R hL hR] at hn
  split at hn
  · simp at hn
  · simp only at hn
    exact (mem_mapKeys_rangeLeftover env _ n).mp (removeAll_calls_sub env _ _ n hn)

theorem scheduled_subset (env : Env) (L : GoMap String) (R : GoMap contentEntry)
    (kv : String × contentEntry) (h : kv ∈ (reconcile (env.rangeContents R) L).scheduled) :
    kv ∈ R := by
  rcases foldl_reconcile_scheduled_mem (env.rangeContents R) ⟨L, []⟩ kv h with h1 | h1
  · simp at h1
  · exact (env.rangeContents_perm R).mem_iff.mp h1

theorem scheduled_base (env : Env) (L : GoMap String) (R : GoMap contentEntry)
    (hbase : ∀ p ∈ mapKeys R, filepathBase p = p) :
    ∀ kv ∈ (reconcile (env.rangeContents R) L).scheduled, filepathBase kv.1 = kv.1 :=
  fun kv hkv => hbase kv.1 (List.mem_map.mpr ⟨kv, scheduled_subset env L R kv hkv, rfl⟩)

/-- On a directory in which every file has one name and with base names
scheduled, a name that is neither fetched nor left over keeps its entry. -/
theorem main_get_other (env : Env) (dir : Dir) (L : GoMap String) (R : GoMap contentEntry)
    (hL : localHashes env dir = .ok L) (hR : manifest env = .ok R) (hu : Unaliased dir)
    (hb : ∀ kv ∈ (reconcile (env.rangeContents R) L).scheduled, filepathBase kv.1 = kv.1)
    (n : String)
    (h1 : n ∉ (reconcile (env.rangeContents R) L).scheduled.map Prod.fst)
    (h2 : n ∉ mapKeys (reconcile (env.rangeContents R) L).firmwareHashes) :
    mapGet (main env dir).dir n = mapGet dir n := by
  have hf := (fetchAll_unaliased env (userPassOf env) _ dir hu hb).2 n h1
  rw [main_run env dir L R hL hR]
  split
  · simp only
    exact hf
  · simp only
    rw [removeAll_get_other env _ _ n (by rwa [mem_mapKeys_rangeLeftover])]
    exact hf

theorem main_unaliased (env : Env) (dir : Dir) (L : GoMap String) (R : GoMap contentEntry)
    (hL : localHashes env dir = .ok L) (hR : manifest env = .ok R) (hu : Unaliased dir)
    (hb : ∀ kv ∈ (reconcile (env.rangeContents R) L).scheduled, filepathBase kv.1 = kv.1) :
    Unaliased (main env dir).dir := by
  have hf := (fetchAll_unaliased env (userPassOf env) _ dir hu hb).1
  rw [main_run env dir L R hL hR]
  split
  · simp only
    exact hf
  · simp only
    exact removeAll_unaliased env _ _ hf

/-- The names a successful run passes to `os.Remove`, against a manifest of
base names: the names outside the manifest that were there and match the pattern. -/
theorem run_removed (env : Env) (dir : Dir) (L : GoMap String) (R : GoMap contentEntry)
    (hL : localHashes env dir = .ok L) (hR : manifest env = .ok R)
    (hok : (main env dir).fatal = none) (hbase : ∀ p ∈ mapKeys R, filepathBase p = p)
    (n : String) :
    (n ∈ (main env dir).removeCalls ↔ n ∉ mapKeys R ∧ n ∈ mapKeys dir ∧ matchBin n = true) ∧
    (n ∈ mapKeys (reconcile (env.rangeContents R) L).firmwareHashes ↔
      n ∉ mapKeys R ∧ n ∈ mapKeys dir ∧ matchBin n = true) := by
  obtain ⟨_, _, hf⟩ := reconcile_base L R (env.rangeContents R) (env.rangeContents_perm R)
    (manifest_nodup env R hR) hbase
  obtain ⟨_, hrm, _⟩ := main_ok_run env dir L R hL hR hok
  have hleft : n ∈ mapKeys (reconcile (env.rangeContents R) L).firmwareHashes ↔
      n ∉ mapKeys R ∧ n ∈ mapKeys dir ∧ matchBin n = true := by
    rw [mem_mapKeys_iff, hf n]
    by_cases hn : n ∈ mapKeys R
    · simp [hn]
    · simp only [hn, if_false, not_false_eq_true, true_and]
      rw [← mem_mapKeys_iff]
      exact mem_localHashes env dir L hL n
  exact ⟨by rw [hrm n, hleft], hleft⟩

/-- A name of the manifest that a run against base names does not schedule
is current: it matches the pattern and its local hash is the sha of its entry. -/
theorem unscheduled_current (env : Env) (L : GoMap String) (R : GoMap contentEntry)
    (hR : manifest env = .ok R) (hbase : ∀ p ∈ mapKeys R, filepathBase p = p)
    (n : String) (c : contentEntry) (hn : mapGet R n = some c)
    (hsch : (n, c) ∉ (reconcile (env.rangeContents R) L).scheduled) :
    mapGet L n = some c.Sha ∧ n ∉ (reconcile (env.rangeContents R) L).scheduled.map Prod.fst := by
  obtain ⟨hs, _, _⟩ := reconcile_base L R (env.rangeContents R) (env.rangeContents_perm R)
    (manifest_nodup env R hR) hbase
  have hcur : mapGet L n = some c.Sha := by
    by_contra hne
    exact hsch ((hs (n, c)).mpr ⟨hn, hne⟩)
  refine ⟨hcur, ?_⟩
  intro h
  obtain ⟨kv, hkv, hk⟩ := List.mem_map.mp h
  have h1 := ((hs kv).mp hkv).1
  rw [hk, hn] at h1
  have : kv = (n, c) := Prod.ext hk (Option.some.inj h1).symm
  exact hsch (this ▸ hkv)

/-- After a successful run on a directory in which every file has one name,
against a manifest of base names: a name outside the manifest is gone if it
matches the pattern and untouched otherwise. -/
theorem run_get_not_manifest (env : Env) (dir : Dir) (L : GoMap String) (R : GoMap contentEntry)
    (hL : localHashes env dir = .ok L) (hR : manifest env = .ok R)
    (hok : (main env dir).fatal = none) (hbase : ∀ p ∈ mapKeys R, filepathBase p = p)
    (hu : Unaliased dir) (n : String) (hn : n ∉ mapKeys R) :
    mapGet (main env dir).dir n = (if matchBin n = true then none else mapGet dir n) ∧
    (n ∈ (main env dir).removeCalls ↔ n ∈ mapKeys dir ∧ matchBin n = true) := by
  obtain ⟨hs, _, _⟩ := reconcile_base L R (env.rangeContents R) (env.rangeContents_perm R)
    (manifest_nodup env R hR) hbase
  obtain ⟨_, _, hdir⟩ := main_ok_run env dir L R hL hR hok
  obtain ⟨hrm, hleft⟩ := run_removed env dir L R hL hR hok hbase n
  simp only [hn, not_false_eq_true, true_and] at hrm hleft
  have hns : n ∉ (reconcile (env.rangeContents R) L).scheduled.map Prod.fst := by
    intro h
    obtain ⟨kv, hkv, hk⟩ := List.mem_map.mp h
    have := ((hs kv).mp hkv).1
    rw [hk] at this
    exact hn ((mem_mapKeys_iff R n).mpr ⟨_, this⟩)
  refine ⟨?_, hrm⟩
  rw [hdir n,
    (fetchAll_unaliased env (userPassOf env) _ dir hu (scheduled_base env L R hbase)).2 n hns]
  by_cases hm : matchBin n = true
  · by_cases hk : n ∈ mapKeys dir
    · simp [hleft, hm, hk]
    · simp [hleft, hm, hk, (not_mem_mapKeys_iff dir n).mp hk]
  · simp [hleft, hm]

/-- After a successful run on a directory in which every file has one name,
against a manifest of base names: a manifest name holds the downloaded body if
it was scheduled, and else its old entry, a file whose content hash is the sha
of the manifest entry. -/
theorem run_get_manifest (env : Env) (dir : Dir) (L : GoMap String) (R : GoMap contentEntry)
    (hL : localHashes env dir = .ok L) (hR : manifest env = .ok R)
    (hok : (main env dir).fatal = none) (hbase : ∀ p ∈ mapKeys R, filepathBase p = p)
    (hu : Unaliased dir) (n : String) (c : contentEntry) (hn : mapGet R n = some c) :
    n ∉ (main env dir).removeCalls ∧
    (((n, c) ∈ (main env dir).scheduled ∧
        ∃ resp, env.httpDo (downloadRequest (userPassOf env) c) = .ok resp ∧
          fileAt (main env dir).dir n = some ⟨resp.body.length, resp.body⟩) ∨
     ((n, c) ∉ (main env dir).scheduled ∧ matchBin n = true ∧
        n ∉ (main env dir).scheduled.map Prod.fst ∧
        mapGet (main env dir).dir n = mapGet dir n ∧
        ∃ f, fileAt dir n = some f ∧ fileHash f = c.Sha)) := by
  obtain ⟨_, hsnd, _⟩ := reconcile_base L R (env.rangeContents R) (env.rangeContents_perm R)
    (manifest_nodup env R hR) hbase
  obtain ⟨hfetch, _, hdir⟩ := main_ok_run env dir L R hL hR hok
  obtain ⟨hrm, hleft0⟩ := run_removed env dir L R hL hR hok hbase n
  have hsb := scheduled_base env L R hbase
  have hmem : n ∈ mapKeys R := (mem_mapKeys_iff R n).mpr ⟨c, hn⟩
  have hleft : n ∉ mapKeys (reconcile (env.rangeContents R) L).firmwareHashes := by
    rw [hleft0]
    simp [hmem]
  refine ⟨by rw [hrm]; simp [hmem], ?_⟩
  rw [main_scheduled env dir L R hL hR]
  by_cases hsch : (n, c) ∈ (reconcile (env.rangeContents R) L).scheduled
  · left
    refine ⟨hsch, ?_⟩
    obtain ⟨resp, ino, hresp, hg⟩ :=
      fetchAll_ok_get env _ _ dir hu hsb hfetch hsnd (n, c) hsch
    refine ⟨resp, hresp, ?_⟩
    unfold fileAt
    rw [hdir n]
    simp only [hleft, if_false]
    simp only at hg
    rw [hg]
  · right
    obtain ⟨hcur, hns⟩ := unscheduled_current env L R hR hbase n c hn hsch
    rw [localHashes_get_match env dir L hu.1 hL n] at hcur
    have hm : matchBin n = true := by
      by_contra hm
      simp [hm] at hcur
    simp only [hm, if_true] at hcur
    refine ⟨hsch, hm, hns, main_get_other env dir L R hL hR hu hsb n hns hleft, ?_⟩
    cases hb : fileAt dir n with
    | none => simp [hb] at hcur
    | some f =>
      simp only [hb, Option.map_some', Option.some.injEq] at hcur
      exact ⟨f, rfl, hcur⟩

/-! ## Test vectors -/

/-- The SHA-1 of `abc`, from the standard. -/
theorem sha1Sum_abc :
    hexString (sha1Sum [97, 98, 99]) = "a9993e364706816aba3e25717850c26c9cd0d89d" := by
  decide

/-- The SHA-1 of the 56-byte, two-block message of the standard. -/
theorem sha1Sum_two_blocks :
    hexString (sha1Sum ("abcdbcdecdefdefgefghfghighijhijkijkljklmklmnlmnomnopnopq".data.map
      fun ch => UInt8.ofNat ch.toNat)) = "84983e441c3bd26ebaae4aa1f95129e5e54670f1" := by
  decide

/-- The hash git gives the empty blob. -/
theorem gitBlobHash_empty : gitBlobHash [] = "e69de29bb2d1d6434b8b29ae775ad8c2e48c5391" := by
  decide

/-! ## The claims -/

/-- C3 (amended): for every local hash mapping and every manifest built from a
listing whose names are base names, the reconcile loop, in whatever order it
visits the manifest, realises the three-class plan: every name of the union is
in exactly one of current, needsFetch and orphaned, a fetch task is scheduled
for exactly the needsFetch names, and the mapping left is exactly the orphaned names. -/
theorem reconcile_plan_of_base_names (L : GoMap String) (cs : List contentEntry)
    (order : GoMap contentEntry) (hperm : order.Perm (manifestMap cs))
    (hbase : ∀ c ∈ cs, filepathBase c.Name = c.Name) :
    ReconcilePlan L (manifestMap cs) (reconcile order L) := by
  have hb : ∀ p ∈ mapKeys (manifestMap cs), filepathBase p = p := by
    intro p hp
    obtain ⟨c, hc, h⟩ := mem_names_of_mem_manifestMap cs p hp
    rw [← h]
    exact hbase c hc
  obtain ⟨hs, _, hf⟩ := reconcile_base L (manifestMap cs) order hperm (nodup_manifestMap cs) hb
  refine ⟨plan_partition L (manifestMap cs), ?_, ?_⟩
  · intro n
    unfold needsFetch
    constructor
    · intro h
      obtain ⟨kv, hkv, hk⟩ := List.mem_map.mp h
      have := (hs kv).mp hkv
      rw [hk] at this
      exact ⟨kv.2, this⟩
    · rintro ⟨c, h1, h2⟩
      exact List.mem_map.mpr ⟨(n, c), (hs (n, c)).mpr ⟨h1, h2⟩, rfl⟩
  · intro n
    unfold isOrphaned
    rw [mem_mapKeys_iff, hf n]
    by_cases hr : n ∈ mapKeys (manifestMap cs)
    · simp [hr]
    · simp only [hr, if_false, not_false_eq_true, and_true]
      exact (mem_mapKeys_iff L n).symm

/-- The plan holds for the scenario of the specification, visited in listing order. -/
theorem reconcile_plan_of_base_names_witness :
    (∀ c ∈ ([⟨"a.bin", "h1", 1, "ua"⟩, ⟨"c.bin", "h3", 1, "uc"⟩] : List contentEntry),
      filepathBase c.Name = c.Name) ∧
    ReconcilePlan [("a.bin", "h1"), ("b.bin", "h2")]
      (manifestMap [⟨"a.bin", "h1", 1, "ua"⟩, ⟨"c.bin", "h3", 1, "uc"⟩])
      (reconcile (manifestMap [⟨"a.bin", "h1", 1, "ua"⟩, ⟨"c.bin", "h3", 1, "uc"⟩])
        [("a.bin", "h1"), ("b.bin", "h2")]) :=
  ⟨by decide, reconcile_plan_of_base_names _ _ _ (List.Perm.refl _) (by decide)⟩

/-- C3 as stated fails: with the local mapping `a.bin ↦ h1` and the manifest
`x/a.bin ↦ h1`, the name `x/a.bin` has no local hash, so it needs a fetch, yet
the loop looks up its base name `a.bin`, finds the hash equal and schedules nothing. -/
theorem reconcile_plan_fails_for_nested_name :
    ¬ ReconcilePlan [("a.bin", "h1")] (manifestMap [⟨"x/a.bin", "h1", 1, "ux"⟩])
      (reconcile (manifestMap [⟨"x/a.bin", "h1", 1, "ux"⟩]) [("a.bin", "h1")]) := by
  intro h
  have h1 : needsFetch [("a.bin", "h1")] (manifestMap [⟨"x/a.bin", "h1", 1, "ux"⟩]) "x/a.bin" :=
    ⟨⟨"x/a.bin", "h1", 1, "ux"⟩, by decide, by decide⟩
  have h2 := (h.2.1 "x/a.bin").mpr h1
  revert h2
  decide

/-- C4 (amended): if the local hash of the base name of a manifest entry equals
the sha of the entry, and no other manifest name has the same base name, then in
whatever order the loop visits the manifest no fetch task is scheduled for that
entry nor for any path with that base name, and the file is not passed to
`os.Remove`; when moreover the directory has no symbolic link and no two names
hard-linked to one file, and every manifest name is a base name, the entry of
that name, so the bytes of the file, is at the end of the run what it was. -/
theorem matching_file_is_not_fetched (env : Env) (dir : Dir) (L : GoMap String)
    (R : GoMap contentEntry) (p : String) (c : contentEntry)
    (hL : localHashes env dir = .ok L) (hR : manifest env = .ok R)
    (hp : mapGet R p = some c) (hhash : mapGet L (filepathBase p) = some c.Sha)
    (huniq : ∀ q ∈ mapKeys R, filepathBase q = filepathBase p → q = p) :
    (∀ kv ∈ (main env dir).scheduled, filepathBase kv.1 ≠ filepathBase p) ∧
    filepathBase p ∉ (main env dir).removeCalls ∧
    (Unaliased dir → (∀ q ∈ mapKeys R, filepathBase q = q) →
      mapGet (main env dir).dir (filepathBase p) = mapGet dir (filepathBase p)) := by
  have hperm := env.rangeContents_perm R
  have hnd : (mapKeys (env.rangeContents R)).Nodup :=
    (hperm.map Prod.fst).nodup_iff.mpr (manifest_nodup env R hR)
  have hkeys : ∀ q, q ∈ mapKeys (env.rangeContents R) ↔ q ∈ mapKeys R :=
    fun q => (hperm.map Prod.fst).mem_iff
  have hmem : (p, c) ∈ env.rangeContents R := hperm.mem_iff.mpr (mem_of_mapGet R p c hp)
  have hskip := foldl_reconcile_skips p c (env.rangeContents R) ⟨L, []⟩ hnd hmem
    (fun q hq => huniq q ((hkeys q).mp hq)) hhash
  have hsched : ∀ kv ∈ (reconcile (env.rangeContents R) L).scheduled,
      filepathBase kv.1 ≠ filepathBase p := by
    intro kv hkv heq
    have hin : kv ∈ R := scheduled_subset env L R kv hkv
    have hq : kv.1 = p := huniq kv.1 (List.mem_map.mpr ⟨kv, hin, rfl⟩) heq
    rcases hskip kv hkv with h | h
    · simp at h
    · exact h hq
  have hleft : filepathBase p ∉ mapKeys (reconcile (env.rangeContents R) L).firmwareHashes := by
    rw [not_mem_mapKeys_iff]
    unfold reconcile
    rw [foldl_reconcile_get]
    have : filepathBase p ∈ (env.rangeContents R).map fun kv => filepathBase kv.1 :=
      List.mem_map.mpr ⟨(p, c), hmem, rfl⟩
    simp [this]
  have hns : filepathBase p ∉ (reconcile (env.rangeContents R) L).scheduled.map Prod.fst := by
    intro h
    obtain ⟨kv, hkv, hk⟩ := List.mem_map.mp h
    apply hsched kv hkv
    rw [hk, filepathBase_idem]
  refine ⟨?_, ?_, ?_⟩
  · rw [main_scheduled env dir L R hL hR]
    exact hsched
  · intro h
    exact hleft (main_removeCalls_sub env dir L R hL hR _ h)
  · intro hu hbase
    exact main_get_other env dir L R hL hR hu (scheduled_base env L R hbase) _ hns hleft

/-- In the scenario of the specification `a.bin` is current: it is not fetched and keeps its bytes. -/
theorem matching_file_is_not_fetched_witness :
    localHashes scenarioEnv scenarioDir =
      .ok [("a.bin", gitBlobHash [1]), ("b.bin", gitBlobHash [2])] ∧
    manifest scenarioEnv = .ok (manifestMap scenarioListing) ∧
    Unaliased scenarioDir ∧
    (∀ kv ∈ (main scenarioEnv scenarioDir).scheduled, filepathBase kv.1 ≠ filepathBase "a.bin") ∧
    filepathBase "a.bin" ∉ (main scenarioEnv scenarioDir).removeCalls ∧
    mapGet (main scenarioEnv scenarioDir).dir (filepathBase "a.bin") =
      mapGet scenarioDir (filepathBase "a.bin") :=
  have h := matching_file_is_not_fetched scenarioEnv scenarioDir
    [("a.bin", gitBlobHash [1]), ("b.bin", gitBlobHash [2])] (manifestMap scenarioListing)
    "a.bin" ⟨"a.bin", gitBlobHash [1], 1, "ua"⟩ (by decide) (by decide) (by decide) (by decide)
    (by decide)
  ⟨by decide, by decide, by decide, h.1, h.2.1, h.2.2 (by decide) (by decide)⟩

/-- C4 as stated fails three times. The manifest names `x/a.bin` and `a.bin`
share the base name `a.bin`: the local `a.bin` has the hash of the entry
`a.bin`, but the loop meets `x/a.bin` first, consumes the local hash under the
base name, then finds no local hash for `a.bin`, schedules its fetch, and the
file is overwritten with the byte the download location returns. When `l.bin`
is a hard link to the matching `a.bin`, no fetch is scheduled for `a.bin`, yet
the fetch of `l.bin` writes the file both names share. And when `s.bin` is a
symbolic link to the matching `a.bin`, the fetch of `s.bin` writes `a.bin`. -/
theorem matching_file_overwritten :
    (localHashes clashEnv clashDir = .ok [("a.bin", gitBlobHash [1])] ∧
      manifest clashEnv = .ok (manifestMap clashListing) ∧
      mapGet (manifestMap clashListing) "a.bin" = some ⟨"a.bin", gitBlobHash [1], 1, "ua"⟩ ∧
      ("a.bin", ⟨"a.bin", gitBlobHash [1], 1, "ua"⟩) ∈ (main clashEnv clashDir).scheduled ∧
      contentAt (main clashEnv clashDir).dir "a.bin" = some [9]) ∧
    (localHashes linkedEnv linkedDir =
        .ok [("a.bin", gitBlobHash [1]), ("l.bin", gitBlobHash [1])] ∧
      manifest linkedEnv = .ok (manifestMap linkedListing) ∧
      mapGet (manifestMap linkedListing) "a.bin" = some ⟨"a.bin", gitBlobHash [1], 1, "ua"⟩ ∧
      (main linkedEnv linkedDir).fatal = none ∧
      "a.bin" ∉ (main linkedEnv linkedDir).scheduled.map Prod.fst ∧
      contentAt linkedDir "a.bin" = some [1] ∧
      contentAt (main linkedEnv linkedDir).dir "a.bin" = some [3]) ∧
    (localHashes aliasEnv aliasDir =
        .ok [("a.bin", gitBlobHash [1]), ("s.bin", gitBlobHash [1])] ∧
      manifest aliasEnv = .ok (manifestMap aliasListing) ∧
      mapGet (manifestMap aliasListing) "a.bin" = some ⟨"a.bin", gitBlobHash [1], 1, "ua"⟩ ∧
      (main aliasEnv aliasDir).fatal = none ∧
      "a.bin" ∉ (main aliasEnv aliasDir).scheduled.map Prod.fst ∧
      contentAt aliasDir "a.bin" = some [1] ∧
      contentAt (main aliasEnv aliasDir).dir "a.bin" = some [3]) := by
  refine ⟨?_, ?_, ?_⟩ <;> decide

/-- C1 (amended): after a successful run on a directory without symbolic
links, against a manifest whose names are base names, the set of names present
is the set of manifest names together with the names that were there before
and do not match the scanned pattern; when every name that was there matches
the pattern it is exactly the set of manifest names. -/
theorem successful_run_names (env : Env) (dir : Dir) (R : GoMap contentEntry)
    (hR : manifest env = .ok R) (hok : (main env dir).fatal = none)
    (hbase : ∀ p ∈ mapKeys R, filepathBase p = p) (hs : NoSymlinks dir) (n : String) :
    n ∈ mapKeys (main env dir).dir ↔ n ∈ mapKeys R ∨ (n ∈ mapKeys dir ∧ matchBin n = false) := by
  obtain ⟨L, hL⟩ := main_ok_localHashes env dir hok
  obtain ⟨hfetch, _, hdir⟩ := main_ok_run env dir L R hL hR hok
  obtain ⟨_, hleft⟩ := run_removed env dir L R hL hR hok hbase n
  obtain ⟨_, hsub, hin⟩ := fetchAll_names env (userPassOf env)
    (reconcile (env.rangeContents R) L).scheduled dir hs (scheduled_base env L R hbase)
  have hmono := fetchAll_keys_mono env (userPassOf env)
    (reconcile (env.rangeContents R) L).scheduled dir n
  have hfinal : n ∈ mapKeys (main env dir).dir ↔
      n ∉ mapKeys (reconcile (env.rangeContents R) L).firmwareHashes ∧
      n ∈ mapKeys (fetchAll env (userPassOf env)
        (reconcile (env.rangeContents R) L).scheduled dir).2 := by
    rw [mem_mapKeys_iff, hdir n]
    by_cases hl : n ∈ mapKeys (reconcile (env.rangeContents R) L).firmwareHashes
    · simp [hl]
    · simp only [hl, if_false, not_false_eq_true, true_and]
      exact (mem_mapKeys_iff _ n).symm
  rw [hfinal, hleft]
  by_cases hn : n ∈ mapKeys R
  · obtain ⟨c, hc⟩ := (mem_mapKeys_iff R n).mp hn
    have hF : n ∈ mapKeys (fetchAll env (userPassOf env)
        (reconcile (env.rangeContents R) L).scheduled dir).2 := by
      by_cases hsch : (n, c) ∈ (reconcile (env.rangeContents R) L).scheduled
      · exact hin hfetch (n, c) hsch
      · have hcur := (unscheduled_current env L R hR hbase n c hc hsch).1
        have hl : n ∈ mapKeys L := (mem_mapKeys_iff L n).mpr ⟨_, hcur⟩
        exact hmono ((mem_localHashes env dir L hL n).mp hl).1
    simp [hn, hF]
  · have hF : n ∈ mapKeys (fetchAll env (userPassOf env)
        (reconcile (env.rangeContents R) L).scheduled dir).2 ↔ n ∈ mapKeys dir := by
      constructor
      · intro h
        rcases hsub n h with h1 | h1
        · exact h1
        · obtain ⟨kv, hkv, hk⟩ := List.mem_map.mp h1
          exact absurd (hk ▸ List.mem_map.mpr ⟨kv, scheduled_subset env L R kv hkv, rfl⟩) hn
      · exact hmono
    rw [hF]
    by_cases hm : matchBin n = true
    · simp [hn, hm]
    · have hm2 : matchBin n = false := by simpa using hm
      simp [hn, hm2]

/-- The scenario of the specification: local `a.bin` and `b.bin`, manifest
`a.bin` and `c.bin`; afterwards `c.bin` is present and `b.bin` is not. With
`l.bin` a hard link to `a.bin`, the names afterwards are again those of the manifest. -/
theorem successful_run_names_witness :
    manifest scenarioEnv = .ok (manifestMap scenarioListing) ∧
    (main scenarioEnv scenarioDir).fatal = none ∧
    NoSymlinks scenarioDir ∧
    mapKeys (main scenarioEnv scenarioDir).dir = ["a.bin", "c.bin"] ∧
    ("c.bin" ∈ mapKeys (main scenarioEnv scenarioDir).dir ↔
      "c.bin" ∈ mapKeys (manifestMap scenarioListing) ∨
        ("c.bin" ∈ mapKeys scenarioDir ∧ matchBin "c.bin" = false)) ∧
    ("b.bin" ∈ mapKeys (main scenarioEnv scenarioDir).dir ↔
      "b.bin" ∈ mapKeys (manifestMap scenarioListing) ∨
        ("b.bin" ∈ mapKeys scenarioDir ∧ matchBin "b.bin" = false)) ∧
    NoSymlinks linkedDir ∧
    ("l.bin" ∈ mapKeys (main linkedEnv linkedDir).dir ↔
      "l.bin" ∈ mapKeys (manifestMap linkedListing) ∨
        ("l.bin" ∈ mapKeys linkedDir ∧ matchBin "l.bin" = false)) :=
  ⟨by decide, by decide, by decide, by decide,
    successful_run_names scenarioEnv scenarioDir (manifestMap scenarioListing)
      (by decide) (by decide) (by decide) (by decide) "c.bin",
    successful_run_names scenarioEnv scenarioDir (manifestMap scenarioListing)
      (by decide) (by decide) (by decide) (by decide) "b.bin",
    by decide,
    successful_run_names linkedEnv linkedDir (manifestMap linkedListing)
      (by decide) (by decide) (by decide) (by decide) "l.bin"⟩

/-- C1 as stated fails three times. A file that does not match the pattern is
never scanned and stays: `notes.txt` is present after a successful run whose
manifest does not name it. A manifest name that is not a base name is looked up
by its base name: `x/a.bin` counts as current through the local `a.bin`, so the
run succeeds with `a.bin` present and `x/a.bin` absent. And a manifest name that
is a symbolic link to a missing file is created under the name of its target:
`README.md` is a link to `t.bin`, the run fetches `README.md` and leaves the
new name `t.bin`. -/
theorem successful_run_names_differ :
    (manifest scenarioEnv = .ok (manifestMap scenarioListing) ∧
      (main scenarioEnv notesDir).fatal = none ∧
      ¬ (∀ n, n ∈ mapKeys (main scenarioEnv notesDir).dir ↔
          n ∈ mapKeys (manifestMap scenarioListing))) ∧
    (manifest nestedEnv = .ok (manifestMap nestedListing) ∧
      (main nestedEnv [("a.bin", regular 1 [1])]).fatal = none ∧
      ¬ (∀ n, n ∈ mapKeys (main nestedEnv [("a.bin", regular 1 [1])]).dir ↔
          n ∈ mapKeys (manifestMap nestedListing))) ∧
    (manifest readmeEnv = .ok (manifestMap readmeListing) ∧
      (main readmeEnv danglingDir).fatal = none ∧
      ¬ (∀ n, n ∈ mapKeys (main readmeEnv danglingDir).dir ↔
          n ∈ mapKeys (manifestMap readmeListing))) := by
  refine ⟨⟨by decide, by decide, ?_⟩, ⟨by decide, by decide, ?_⟩, ⟨by decide, by decide, ?_⟩⟩
  · intro h
    have := (h "notes.txt").mp (by decide)
    revert this
    decide
  · intro h
    have := (h "a.bin").mp (by decide)
    revert this
    decide
  · intro h
    have := (h "t.bin").mp (by decide)
    revert this
    decide

/-- C2 (amended): after a successful run on a directory with no symbolic link
and no two names hard-linked to one file, against a manifest whose names are
base names, every manifest name holds a file whose content hash, taken as the
run takes it with the size the file reports, is the sha of its entry, and
whose git blob hash is that sha when the reported size is the number of its
bytes, provided every download of the run returned bytes with that hash. -/
theorem successful_run_hashes (env : Env) (dir : Dir) (R : GoMap contentEntry)
    (hR : manifest env = .ok R) (hok : (main env dir).fatal = none)
    (hbase : ∀ p ∈ mapKeys R, filepathBase p = p) (hu : Unaliased dir)
    (hserved : ∀ kv ∈ (main env dir).scheduled, ∀ resp,
      env.httpDo (downloadRequest (userPassOf env) kv.2) = .ok resp →
        gitBlobHash resp.body = kv.2.Sha)
    (n : String) (c : contentEntry) (hn : mapGet R n = some c) :
    ∃ f, fileAt (main env dir).dir n = some f ∧ fileHash f = c.Sha ∧
      (f.size = f.content.length → gitBlobHash f.content = c.Sha) := by
  obtain ⟨L, hL⟩ := main_ok_localHashes env dir hok
  rcases (run_get_manifest env dir L R hL hR hok hbase hu n c hn).2 with
    ⟨hs, resp, hresp, h⟩ | ⟨_, _, _, h, f, hf, hhash⟩
  · exact ⟨_, h, hserved (n, c) hs resp hresp, fun _ => hserved (n, c) hs resp hresp⟩
  · refine ⟨f, ?_, hhash, ?_⟩
    · unfold fileAt at hf ⊢
      rw [h]
      exact hf
    · intro hsz
      rw [← hhash, fileHash, gitBlobHash, hsz]

/-- In the scenario of the specification the download of `c.bin` returns the
byte the sha announces, and `c.bin` ends with that hash. -/
theorem successful_run_hashes_witness :
    manifest scenarioEnv = .ok (manifestMap scenarioListing) ∧
    (main scenarioEnv scenarioDir).fatal = none ∧
    Unaliased scenarioDir ∧
    fileAt (main scenarioEnv scenarioDir).dir "c.bin" = some ⟨1, [3]⟩ ∧
    gitBlobHash [3] = "fc2b5693e00bdbea3f74ac60459b1df43c295356" ∧
    ∃ f, fileAt (main scenarioEnv scenarioDir).dir "c.bin" = some f ∧
      fileHash f = (⟨"c.bin", gitBlobHash [3], 1, "uc"⟩ : contentEntry).Sha ∧
      (f.size = f.content.length →
        gitBlobHash f.content = (⟨"c.bin", gitBlobHash [3], 1, "uc"⟩ : contentEntry).Sha) :=
  ⟨by decide, by decide, by decide, by decide, by decide,
    successful_run_hashes scenarioEnv scenarioDir (manifestMap scenarioListing)
      (by decide) (by decide) (by decide) (by decide)
      (by
        intro kv hkv resp hresp
        have hs : (main scenarioEnv scenarioDir).scheduled =
            [("c.bin", ⟨"c.bin", gitBlobHash [3], 1, "uc"⟩)] := by decide
        rw [hs, List.mem_singleton] at hkv
        subst hkv
        have hd : scenarioEnv.httpDo (downloadRequest (userPassOf scenarioEnv)
            ⟨"c.bin", gitBlobHash [3], 1, "uc"⟩) = .ok ⟨200, [3]⟩ := by decide
        rw [hd] at hresp
        cases hresp
        rfl)
      "c.bin" ⟨"c.bin", gitBlobHash [3], 1, "uc"⟩ (by decide)⟩

/-- C2 as stated fails five times. The run never hashes what it downloads:
the manifest announces for `c.bin` the hash of the byte 4, the download
location returns the byte 3, the run succeeds and `c.bin` holds the byte 3. A
name that is not a base name counts as current through its base name: the run
succeeds and no file is entered under `x/a.bin`. When `l.bin` is a hard link
to the current `a.bin`, the download of `l.bin`, which returns the bytes its
sha announces, overwrites `a.bin`, whose hash then differs from its sha; so
it is when `s.bin` is a symbolic link to `a.bin`. And a file that reports the
size 0 and delivers three bytes counts as current under the hash of the header
`blob 0`, which is not the git blob hash of its bytes. -/
theorem successful_run_hashes_differ :
    (manifest staleEnv = .ok (manifestMap staleListing) ∧
      (main staleEnv []).fatal = none ∧
      ¬ (∀ n c, mapGet (manifestMap staleListing) n = some c →
          ∃ b, contentAt (main staleEnv []).dir n = some b ∧ gitBlobHash b = c.Sha)) ∧
    (manifest nestedEnv = .ok (manifestMap nestedListing) ∧
      (main nestedEnv [("a.bin", regular 1 [1])]).fatal = none ∧
      ¬ (∀ n c, mapGet (manifestMap nestedListing) n = some c →
          ∃ b, contentAt (main nestedEnv [("a.bin", regular 1 [1])]).dir n = some b ∧
            gitBlobHash b = c.Sha)) ∧
    (manifest linkedEnv = .ok (manifestMap linkedListing) ∧
      (main linkedEnv linkedDir).fatal = none ∧
      (main linkedEnv linkedDir).scheduled = [("l.bin", ⟨"l.bin", gitBlobHash [3], 1, "uc"⟩)] ∧
      linkedEnv.httpDo (downloadRequest (userPassOf linkedEnv)
        ⟨"l.bin", gitBlobHash [3], 1, "uc"⟩) = .ok ⟨200, [3]⟩ ∧
      ¬ (∀ n c, mapGet (manifestMap linkedListing) n = some c →
          ∃ b, contentAt (main linkedEnv linkedDir).dir n = some b ∧ gitBlobHash b = c.Sha)) ∧
    (manifest aliasEnv = .ok (manifestMap aliasListing) ∧
      (main aliasEnv aliasDir).fatal = none ∧
      (main aliasEnv aliasDir).scheduled = [("s.bin", ⟨"s.bin", gitBlobHash [3], 1, "uc"⟩)] ∧
      aliasEnv.httpDo (downloadRequest (userPassOf aliasEnv)
        ⟨"s.bin", gitBlobHash [3], 1, "uc"⟩) = .ok ⟨200, [3]⟩ ∧
      ¬ (∀ n c, mapGet (manifestMap aliasListing) n = some c →
          ∃ b, contentAt (main aliasEnv aliasDir).dir n = some b ∧ gitBlobHash b = c.Sha)) ∧
    (manifest procEnv = .ok (manifestMap procListing) ∧
      (main procEnv procDir).fatal = none ∧
      (main procEnv procDir).scheduled = [] ∧
      ¬ (∀ n c, mapGet (manifestMap procListing) n = some c →
          ∃ b, contentAt (main procEnv procDir).dir n = some b ∧ gitBlobHash b = c.Sha)) := by
  refine ⟨⟨by decide, by decide, ?_⟩, ⟨by decide, by decide, ?_⟩,
    ⟨by decide, by decide, by decide, by decide, ?_⟩,
    ⟨by decide, by decide, by decide, by decide, ?_⟩,
    ⟨by decide, by decide, by decide, ?_⟩⟩
  · intro h
    obtain ⟨b, h1, h2⟩ := h "c.bin" ⟨"c.bin", gitBlobHash [4], 1, "uc"⟩ (by decide)
    have h3 : contentAt (main staleEnv []).dir "c.bin" = some [3] := by decide
    rw [h3] at h1
    cases h1
    revert h2
    decide
  · intro h
    obtain ⟨b, h1, _⟩ := h "x/a.bin" ⟨"x/a.bin", gitBlobHash [1], 1, "ux"⟩ (by decide)
    have h3 : contentAt (main nestedEnv [("a.bin", regular 1 [1])]).dir "x/a.bin" = none := by
      decide
    rw [h3] at h1
    cases h1
  · intro h
    obtain ⟨b, h1, h2⟩ := h "a.bin" ⟨"a.bin", gitBlobHash [1], 1, "ua"⟩ (by decide)
    have h3 : contentAt (main linkedEnv linkedDir).dir "a.bin" = some [3] := by decide
    rw [h3] at h1
    cases h1
    revert h2
    decide
  · intro h
    obtain ⟨b, h1, h2⟩ := h "a.bin" ⟨"a.bin", gitBlobHash [1], 1, "ua"⟩ (by decide)
    have h3 : contentAt (main aliasEnv aliasDir).dir "a.bin" = some [3] := by decide
    rw [h3] at h1
    cases h1
    revert h2
    decide
  · intro h
    obtain ⟨b, h1, h2⟩ := h "proc.bin" ⟨"proc.bin", blobHash 0 [104, 105, 10], 3, "up"⟩
      (by decide)
    have h3 : contentAt (main procEnv procDir).dir "proc.bin" = some [104, 105, 10] := by decide
    rw [h3] at h1
    cases h1
    revert h2
    decide

/-- C5 (amended): after a successful run against a manifest whose names are
base names, every local name that matches the pattern and is not in the
manifest has been removed; only such names are passed to `os.Remove`, so no
manifest name is; a current name is neither removed nor fetched; and when the
directory has no symbolic link and no two names hard-linked to one file, every
name that is neither removed nor fetched, a current name in particular, keeps
its entry, so its file keeps its bytes. -/
theorem orphans_removed_and_only_orphans (env : Env) (dir : Dir) (L : GoMap String)
    (R : GoMap contentEntry) (hL : localHashes env dir = .ok L) (hR : manifest env = .ok R)
    (hok : (main env dir).fatal = none) (hbase : ∀ p ∈ mapKeys R, filepathBase p = p) :
    (∀ n, n ∈ mapKeys dir → matchBin n = true → n ∉ mapKeys R →
      n ∈ (main env dir).removeCalls ∧ mapGet (main env dir).dir n = none) ∧
    (∀ n ∈ (main env dir).removeCalls,
      n ∈ mapKeys dir ∧ matchBin n = true ∧ n ∉ mapKeys R) ∧
    (∀ n, isCurrent L R n →
      n ∉ (main env dir).removeCalls ∧ n ∉ (main env dir).scheduled.map Prod.fst) ∧
    (Unaliased dir →
      ∀ n, n ∉ (main env dir).removeCalls → n ∉ (main env dir).scheduled.map Prod.fst →
        mapGet (main env dir).dir n = mapGet dir n) := by
  obtain ⟨hs, _, _⟩ := reconcile_base L R (env.rangeContents R) (env.rangeContents_perm R)
    (manifest_nodup env R hR) hbase
  obtain ⟨_, _, hdir⟩ := main_ok_run env dir L R hL hR hok
  refine ⟨?_, ?_, ?_, ?_⟩
  · intro n hk hm hn
    obtain ⟨hrm, hleft⟩ := run_removed env dir L R hL hR hok hbase n
    refine ⟨hrm.mpr ⟨hn, hk, hm⟩, ?_⟩
    rw [hdir n]
    simp [hleft.mpr ⟨hn, hk, hm⟩]
  · intro n hn
    obtain ⟨h1, h2, h3⟩ := (run_removed env dir L R hL hR hok hbase n).1.mp hn
    exact ⟨h2, h3, h1⟩
  · rintro n ⟨c, hc, hl⟩
    have hmem : n ∈ mapKeys R := (mem_mapKeys_iff R n).mpr ⟨c, hc⟩
    constructor
    · intro h
      exact ((run_removed env dir L R hL hR hok hbase n).1.mp h).1 hmem
    · intro h
      obtain ⟨kv, hkv, hk⟩ := List.mem_map.mp h
      rw [main_scheduled env dir L R hL hR] at hkv
      obtain ⟨h1, h2⟩ := (hs kv).mp hkv
      rw [hk, hc] at h1
      rw [hk, ← Option.some.inj h1] at h2
      exact h2 hl
  · intro hu n hrm hsch
    by_cases hn : n ∈ mapKeys R
    · obtain ⟨c, hc⟩ := (mem_mapKeys_iff R n).mp hn
      rcases (run_get_manifest env dir L R hL hR hok hbase hu n c hc).2 with
        ⟨hs, _⟩ | ⟨_, _, _, h, _⟩
      · exact absurd (List.mem_map.mpr ⟨(n, c), hs, rfl⟩) hsch
      · exact h
    · obtain ⟨h1, h2⟩ := run_get_not_manifest env dir L R hL hR hok hbase hu n hn
      rw [h1]
      by_cases hm : matchBin n = true
      · have hk : n ∉ mapKeys dir := fun hk => hrm (h2.mpr ⟨hk, hm⟩)
        simp [hm, (not_mem_mapKeys_iff dir n).mp hk]
      · simp [hm]

/-- In the scenario of the specification `b.bin` is the one orphan: it is
removed, and the current `a.bin` keeps its entry. -/
theorem orphans_removed_and_only_orphans_witness :
    localHashes scenarioEnv scenarioDir =
      .ok [("a.bin", gitBlobHash [1]), ("b.bin", gitBlobHash [2])] ∧
    manifest scenarioEnv = .ok (manifestMap scenarioListing) ∧
    (main scenarioEnv scenarioDir).fatal = none ∧
    Unaliased scenarioDir ∧
    (main scenarioEnv scenarioDir).removeCalls = ["b.bin"] ∧
    (∀ n ∈ (main scenarioEnv scenarioDir).removeCalls,
      n ∈ mapKeys scenarioDir ∧ matchBin n = true ∧ n ∉ mapKeys (manifestMap scenarioListing)) ∧
    mapGet (main scenarioEnv scenarioDir).dir "a.bin" = mapGet scenarioDir "a.bin" :=
  have h := orphans_removed_and_only_orphans scenarioEnv scenarioDir
    [("a.bin", gitBlobHash [1]), ("b.bin", gitBlobHash [2])] (manifestMap scenarioListing)
    (by decide) (by decide) (by decide) (by decide)
  ⟨by decide, by decide, by decide, by decide, by decide, h.2.1,
    h.2.2.2 (by decide) "a.bin" (by decide) (by decide)⟩

/-- C5 as stated fails three times. The manifest names `x/b.bin` with the hash
of the local `b.bin`: the name `b.bin` is absent from the manifest, yet the
loop consumes it under the base name of `x/b.bin`, the run succeeds, and
`b.bin` is not removed. When `l.bin` is a hard link to the current `a.bin`,
the fetch of `l.bin` changes the bytes of `a.bin`, which is neither removed
nor fetched; so it is when `s.bin` is a symbolic link to `a.bin`. -/
theorem orphan_kept_and_current_overwritten :
    (manifest (Env.scripted [⟨"x/b.bin", gitBlobHash [2], 1, "ux"⟩] sampleServed [] 200) =
        .ok (manifestMap [⟨"x/b.bin", gitBlobHash [2], 1, "ux"⟩]) ∧
      (main (Env.scripted [⟨"x/b.bin", gitBlobHash [2], 1, "ux"⟩] sampleServed [] 200)
        [("b.bin", regular 1 [2])]).fatal = none ∧
      "b.bin" ∈ mapKeys ([("b.bin", regular 1 [2])] : Dir) ∧ matchBin "b.bin" = true ∧
      "b.bin" ∉ mapKeys (manifestMap [⟨"x/b.bin", gitBlobHash [2], 1, "ux"⟩]) ∧
      (main (Env.scripted [⟨"x/b.bin", gitBlobHash [2], 1, "ux"⟩] sampleServed [] 200)
        [("b.bin", regular 1 [2])]).removeCalls = [] ∧
      contentAt (main (Env.scripted [⟨"x/b.bin", gitBlobHash [2], 1, "ux"⟩] sampleServed [] 200)
        [("b.bin", regular 1 [2])]).dir "b.bin" = some [2]) ∧
    (localHashes linkedEnv linkedDir =
        .ok [("a.bin", gitBlobHash [1]), ("l.bin", gitBlobHash [1])] ∧
      manifest linkedEnv = .ok (manifestMap linkedListing) ∧
      (main linkedEnv linkedDir).fatal = none ∧
      mapGet (manifestMap linkedListing) "a.bin" = some ⟨"a.bin", gitBlobHash [1], 1, "ua"⟩ ∧
      "a.bin" ∉ (main linkedEnv linkedDir).removeCalls ∧
      "a.bin" ∉ (main linkedEnv linkedDir).scheduled.map Prod.fst ∧
      contentAt linkedDir "a.bin" = some [1] ∧
      contentAt (main linkedEnv linkedDir).dir "a.bin" = some [3]) ∧
    (localHashes aliasEnv aliasDir =
        .ok [("a.bin", gitBlobHash [1]), ("s.bin", gitBlobHash [1])] ∧
      manifest aliasEnv = .ok (manifestMap aliasListing) ∧
      (main aliasEnv aliasDir).fatal = none ∧
      mapGet (manifestMap aliasListing) "a.bin" = some ⟨"a.bin", gitBlobHash [1], 1, "ua"⟩ ∧
      "a.bin" ∉ (main aliasEnv aliasDir).removeCalls ∧
      "a.bin" ∉ (main aliasEnv aliasDir).scheduled.map Prod.fst ∧
      contentAt aliasDir "a.bin" = some [1] ∧
      contentAt (main aliasEnv aliasDir).dir "a.bin" = some [3]) := by
  refine ⟨?_, ?_, ?_⟩ <;> decide

/-- C8 (amended): if a first run on a directory with no symbolic link and no
two names hard-linked to one file succeeds against a manifest whose names all
match the scanned pattern, and every download of that run returned bytes whose
git blob hash is the sha of its entry, then a second run against the same
manifest on the directory the first run left schedules no fetch task and
passes no file to `os.Remove`. -/
theorem second_run_is_idle (env1 env2 : Env) (dir : Dir) (R : GoMap contentEntry)
    (hR1 : manifest env1 = .ok R) (hR2 : manifest env2 = .ok R)
    (hok : (main env1 dir).fatal = none)
    (hbin : ∀ p ∈ mapKeys R, matchBin p = true) (hu : Unaliased dir)
    (hserved : ∀ kv ∈ (main env1 dir).scheduled, ∀ resp,
      env1.httpDo (downloadRequest (userPassOf env1) kv.2) = .ok resp →
        gitBlobHash resp.body = kv.2.Sha) :
    (main env2 (main env1 dir).dir).scheduled = [] ∧
    (main env2 (main env1 dir).dir).removeCalls = [] := by
  have hbase : ∀ p ∈ mapKeys R, filepathBase p = p :=
    fun p hp => filepathBase_of_matchBin p (hbin p hp)
  obtain ⟨L1, hL1⟩ := main_ok_localHashes env1 dir hok
  have hu1 : Unaliased (main env1 dir).dir :=
    main_unaliased env1 dir L1 R hL1 hR1 hu (scheduled_base env1 L1 R hbase)
  cases hL2 : localHashes env2 (main env1 dir).dir with
  | error e =>
    rw [main_hash_error env2 _ e hL2]
    exact ⟨rfl, rfl⟩
  | ok L2 =>
    obtain ⟨hs, _, hf⟩ := reconcile_base L2 R (env2.rangeContents R) (env2.rangeContents_perm R)
      (manifest_nodup env2 R hR2) hbase
    have hcur : ∀ n c, mapGet R n = some c → mapGet L2 n = some c.Sha := by
      intro n c hc
      have hm : matchBin n = true := hbin n ((mem_mapKeys_iff R n).mpr ⟨c, hc⟩)
      rw [localHashes_get_match env2 _ L2 hu1.1 hL2 n]
      rcases (run_get_manifest env1 dir L1 R hL1 hR1 hok hbase hu n c hc).2 with
        ⟨hsch, resp, hresp, h⟩ | ⟨_, _, _, h, f, hf, hhash⟩
      · have hh : fileHash ⟨resp.body.length, resp.body⟩ = c.Sha :=
          hserved (n, c) hsch resp hresp
        simp [hm, h, hh]
      · have hf2 : fileAt (main env1 dir).dir n = some f := by
          unfold fileAt at hf ⊢
          rw [h]
          exact hf
        simp [hm, hf2, hhash]
    constructor
    · rw [main_scheduled env2 _ L2 R hL2 hR2, List.eq_nil_iff_forall_not_mem]
      intro kv hkv
      obtain ⟨h1, h2⟩ := (hs kv).mp hkv
      exact h2 (hcur kv.1 kv.2 h1)
    · rw [List.eq_nil_iff_forall_not_mem]
      intro n hn
      have hleft := main_removeCalls_sub env2 _ L2 R hL2 hR2 n hn
      rw [mem_mapKeys_iff, hf n] at hleft
      by_cases hnr : n ∈ mapKeys R
      · simp [hnr] at hleft
      · simp only [hnr, if_false] at hleft
        rw [← mem_mapKeys_iff, mem_localHashes env2 _ L2 hL2 n] at hleft
        obtain ⟨hk, hm⟩ := hleft
        rw [mem_mapKeys_iff,
          (run_get_not_manifest env1 dir L1 R hL1 hR1 hok hbase hu n hnr).1] at hk
        simp [hm] at hk

/-- The scenario of the specification run twice: the second run does nothing. -/
theorem second_run_is_idle_witness :
    manifest scenarioEnv = .ok (manifestMap scenarioListing) ∧
    (main scenarioEnv scenarioDir).fatal = none ∧
    Unaliased scenarioDir ∧
    (main scenarioEnv (main scenarioEnv scenarioDir).dir).scheduled = [] ∧
    (main scenarioEnv (main scenarioEnv scenarioDir).dir).removeCalls = [] :=
  ⟨by decide, by decide, by decide,
    second_run_is_idle scenarioEnv scenarioEnv scenarioDir (manifestMap scenarioListing)
      (by decide) (by decide) (by decide) (by decide) (by decide)
      (by
        intro kv hkv resp hresp
        have hs : (main scenarioEnv scenarioDir).scheduled =
            [("c.bin", ⟨"c.bin", gitBlobHash [3], 1, "uc"⟩)] := by decide
        rw [hs, List.mem_singleton] at hkv
        subst hkv
        have hd : scenarioEnv.httpDo (downloadRequest (userPassOf scenarioEnv)
            ⟨"c.bin", gitBlobHash [3], 1, "uc"⟩) = .ok ⟨200, [3]⟩ := by decide
        rw [hd] at hresp
        cases hresp
        rfl)⟩

/-- C8 as stated fails four times. A manifest name that does not match the
pattern is never hashed, so `README.md` is fetched again by the second run. A
download that returned other bytes than the sha announces leaves a file whose
hash differs, so `c.bin` is fetched again by the second run. When `l.bin` is a
hard link to `a.bin`, the first run writes through `l.bin` the bytes its sha
announces, which are not those of `a.bin`, so the second run fetches `a.bin`;
so it is when `s.bin` is a symbolic link to `a.bin`. -/
theorem second_run_fetches_again :
    ((main readmeEnv []).fatal = none ∧
      (main readmeEnv (main readmeEnv []).dir).scheduled ≠ []) ∧
    ((main staleEnv []).fatal = none ∧
      (main staleEnv (main staleEnv []).dir).scheduled ≠ []) ∧
    ((main linkedEnv linkedDir).fatal = none ∧
      (∀ p ∈ mapKeys (manifestMap linkedListing), matchBin p = true) ∧
      (main linkedEnv linkedDir).scheduled = [("l.bin", ⟨"l.bin", gitBlobHash [3], 1, "uc"⟩)] ∧
      linkedEnv.httpDo (downloadRequest (userPassOf linkedEnv)
        ⟨"l.bin", gitBlobHash [3], 1, "uc"⟩) = .ok ⟨200, [3]⟩ ∧
      (main linkedEnv (main linkedEnv linkedDir).dir).scheduled ≠ []) ∧
    ((main aliasEnv aliasDir).fatal = none ∧
      (∀ p ∈ mapKeys (manifestMap aliasListing), matchBin p = true) ∧
      (main aliasEnv aliasDir).scheduled = [("s.bin", ⟨"s.bin", gitBlobHash [3], 1, "uc"⟩)] ∧
      aliasEnv.httpDo (downloadRequest (userPassOf aliasEnv)
        ⟨"s.bin", gitBlobHash [3], 1, "uc"⟩) = .ok ⟨200, [3]⟩ ∧
      (main aliasEnv (main aliasEnv aliasDir).dir).scheduled ≠ []) := by
  refine ⟨?_, ?_, ?_, ?_⟩ <;> decide

/-- C6: if a scheduled fetch task returns an error, on the directory as the
run found it or as the other tasks have changed it by then (they add and
overwrite regular files only), the run fails and the removal loop does not
execute: nothing is passed to `os.Remove` and every name present before the
run is still present. When moreover the directory has no symbolic link and no
two names hard-linked to one file, and the scheduled names are base names, a
name for which no fetch task was scheduled, an orphan in particular, keeps its
entry, so its file keeps its bytes. -/
theorem fetch_error_skips_removal (env : Env) (dir d : Dir) (kv : String × contentEntry)
    (hkv : kv ∈ (main env dir).scheduled) (hd : SameShape dir d)
    (herr : (fetchTask env (userPassOf env) d kv.1 kv.2).1 ≠ none) :
    (main env dir).fatal ≠ none ∧ (main env dir).removeCalls = [] ∧
    (∀ n ∈ mapKeys dir, n ∈ mapKeys (main env dir).dir) ∧
    (Unaliased dir → (∀ q ∈ (main env dir).scheduled, filepathBase q.1 = q.1) →
      ∀ n, n ∉ (main env dir).scheduled.map Prod.fst →
        mapGet (main env dir).dir n = mapGet dir n) := by
  cases hL : localHashes env dir with
  | error e =>
    rw [main_hash_error env dir e hL] at hkv
    simp at hkv
  | ok L =>
    cases hR : manifest env with
    | error e =>
      rw [(main_manifest_error env dir e hR).2.2.1] at hkv
      simp at hkv
    | ok R =>
      have hsch := main_scheduled env dir L R hL hR
      rw [hsch] at hkv
      have hfail : (fetchAll env (userPassOf env)
          (reconcile (env.rangeContents R) L).scheduled dir).1 ≠ none := by
        intro h
        exact herr (fetchAll_fst_shape env _ _ dir h kv hkv d hd)
      rw [main_run env dir L R hL hR]
      split
      · refine ⟨by simp, rfl, ?_, ?_⟩
        · intro n hn
          exact fetchAll_keys_mono env _ _ dir n hn
        · intro hu hb n hn
          exact (fetchAll_unaliased env _ _ dir hu hb).2 n hn
      · rename_i h
        exact absurd h hfail

/-- The scenario of the specification when `c.bin` cannot be created: the run
fails and the orphan `b.bin` is still there. -/
theorem fetch_error_skips_removal_witness :
    (fetchTask readOnlyEnv (userPassOf readOnlyEnv) scenarioDir "c.bin"
      ⟨"c.bin", gitBlobHash [3], 1, "uc"⟩).1 ≠ none ∧
    (main readOnlyEnv scenarioDir).fatal ≠ none ∧
    (main readOnlyEnv scenarioDir).removeCalls = [] ∧
    (∀ n ∈ mapKeys scenarioDir, n ∈ mapKeys (main readOnlyEnv scenarioDir).dir) ∧
    (∀ n, n ∉ (main readOnlyEnv scenarioDir).scheduled.map Prod.fst →
      mapGet (main readOnlyEnv scenarioDir).dir n = mapGet scenarioDir n) :=
  have h := fetch_error_skips_removal readOnlyEnv scenarioDir scenarioDir
    ("c.bin", ⟨"c.bin", gitBlobHash [3], 1, "uc"⟩) (by decide) (sameShape_refl scenarioDir)
    (by decide)
  ⟨by decide, h.1, h.2.1, h.2.2.1, h.2.2.2 (by decide) (by decide)⟩

/-- C7: if the manifest request is answered with a status other than 200, or
with a body that does not decode as the listing, `githubContents` returns an
error and no manifest, and `main` ends with an error before it creates,
overwrites or removes anything: the directory is the one it started with. -/
theorem manifest_failure_leaves_directory (env : Env) (dir : Dir) (resp : Response)
    (hresp : env.httpDo (manifestRequest (userPassOf env) manifestURL) = .ok resp)
    (hbad : resp.statusCode ≠ 200 ∨ env.jsonDecode resp.body = none) :
    (∃ e, githubContents env (userPassOf env) manifestURL = .error e) ∧
    (main env dir).fatal ≠ none ∧ (main env dir).dir = dir ∧
    (main env dir).scheduled = [] ∧ (main env dir).removeCalls = [] := by
  have herr : ∃ e, githubContents env (userPassOf env) manifestURL = .error e := by
    unfold githubContents
    by_cases h0 : env.newRequestFails manifestURL = true
    · exact ⟨.newRequest manifestURL, by simp [h0]⟩
    · by_cases h1 : resp.statusCode = 200
      · rcases hbad with h | h
        · exact absurd h1 h
        · exact ⟨.decode, by simp [h0, hresp, h1, h]⟩
      · exact ⟨.status resp.statusCode resp.body, by simp [h0, hresp, h1]⟩
  obtain ⟨e, he⟩ := herr
  exact ⟨⟨e, he⟩, main_manifest_error env dir e he⟩

/-- A manifest request answered with status 403 leaves the scenario directory as it was. -/
theorem manifest_failure_leaves_directory_witness :
    forbiddenEnv.httpDo (manifestRequest (userPassOf forbiddenEnv) manifestURL) = .ok ⟨403, []⟩ ∧
    (∃ e, githubContents forbiddenEnv (userPassOf forbiddenEnv) manifestURL = .error e) ∧
    (main forbiddenEnv scenarioDir).fatal ≠ none ∧
    (main forbiddenEnv scenarioDir).dir = scenarioDir ∧
    (main forbiddenEnv scenarioDir).scheduled = [] ∧
    (main forbiddenEnv scenarioDir).removeCalls = [] :=
  ⟨by decide,
    manifest_failure_leaves_directory forbiddenEnv scenarioDir ⟨403, []⟩ (by decide)
      (Or.inl (by decide))⟩

/-- C9 (amended): a hashing task that reads a file records, under the base name
of the path, the lowercase hexadecimal SHA-1 of `blob`, a space, the decimal
size `Stat` reports, a NUL byte and the bytes read. The value depends on that
size and those bytes only: a task on another path, directory or environment
that reads the same size and bytes records the same string. When the reported
size is the length of the bytes it is the git blob hash of the bytes. The
string has 40 characters, all of them hexadecimal digits. -/
theorem hashTask_records_blob_hash (env env2 : Env) (dir dir2 : Dir) (path path2 : String)
    (f : File) (hread : readFile env dir path = some f)
    (hread2 : readFile env2 dir2 path2 = some f) :
    hashTask env dir path = .ok (filepathBase path, blobHash f.size f.content) ∧
    hashTask env2 dir2 path2 = .ok (filepathBase path2, blobHash f.size f.content) ∧
    (f.size = f.content.length → blobHash f.size f.content = gitBlobHash f.content) ∧
    (blobHash f.size f.content).length = 40 ∧
    ∀ ch ∈ (blobHash f.size f.content).data, ch ∈ "0123456789abcdef".data :=
  ⟨hashTask_ok env dir path f hread, hashTask_ok env2 dir2 path2 f hread2,
    fun h => by rw [gitBlobHash, h], length_blobHash _ _, hexString_chars _⟩

/-- A file of a hundred bytes gets the hash git gives that blob, from a header
with a three-digit length and a message of two blocks; so does a file of three bytes. -/
theorem hashTask_records_blob_hash_witness :
    readFile scenarioEnv sizedDir "big.bin" = some ⟨100, hundredBytes⟩ ∧
    hashTask scenarioEnv sizedDir "big.bin" =
      .ok ("big.bin", "e2ff04130692d9bf4db627c66261452b72332a7b") ∧
    hashTask readOnlyEnv [("hi.bin", regular 7 [104, 105, 10])] "./hi.bin" =
      .ok ("hi.bin", "45b983be36b73c0788dc9cbcb76cbb80fc7bb057") ∧
    gitBlobHash hundredBytes = "e2ff04130692d9bf4db627c66261452b72332a7b" ∧
    gitBlobHash [104, 105, 10] = "45b983be36b73c0788dc9cbcb76cbb80fc7bb057" :=
  have h1 := hashTask_records_blob_hash scenarioEnv readOnlyEnv sizedDir sizedDir
    "big.bin" "big.bin" ⟨100, hundredBytes⟩ (by decide) (by decide)
  have h2 := hashTask_records_blob_hash readOnlyEnv scenarioEnv
    [("hi.bin", regular 7 [104, 105, 10])] sizedDir "./hi.bin" "hi.bin" ⟨3, [104, 105, 10]⟩
    (by decide) (by decide)
  have v1 : blobHash 100 hundredBytes = "e2ff04130692d9bf4db627c66261452b72332a7b" := by decide
  have v2 : blobHash 3 [104, 105, 10] = "45b983be36b73c0788dc9cbcb76cbb80fc7bb057" := by decide
  ⟨by decide, by rw [← v1]; exact h1.1, by rw [← v2]; exact h2.1,
    by rw [← h1.2.2.1 (by decide)]; exact v1, by rw [← h2.2.2.1 (by decide)]; exact v2⟩

/-- C9 as stated fails: the header carries the size `Stat` reports, not the
number of bytes read. A file that reports size 0 and delivers the three bytes
of `hi` and a newline, as a file of a process file system does or a file that
grows between `Stat` and the copy, gets another hash than the git blob hash of
its bytes, and another than the regular file with the same bytes. -/
theorem hash_follows_reported_size :
    readFile scenarioEnv sizedDir "proc.bin" = some ⟨0, [104, 105, 10]⟩ ∧
    readFile scenarioEnv sizedDir "hi.bin" = some ⟨3, [104, 105, 10]⟩ ∧
    hashTask scenarioEnv sizedDir "proc.bin" =
      .ok ("proc.bin", "bdcc16c398840fa69099ea0990c6bd5cd8f36023") ∧
    hashTask scenarioEnv sizedDir "hi.bin" =
      .ok ("hi.bin", "45b983be36b73c0788dc9cbcb76cbb80fc7bb057") ∧
    gitBlobHash [104, 105, 10] = "45b983be36b73c0788dc9cbcb76cbb80fc7bb057" ∧
    hashTask scenarioEnv sizedDir "proc.bin" ≠ .ok ("proc.bin", gitBlobHash [104, 105, 10]) := by
  decide

/-- C10 fails on the code: with an empty flag and both environment variables
unset, the credential becomes the lone colon that joins them, which is not
empty, so `authenticate` adds the header `Authorization: Basic Og==` to the
manifest request and to every download request. -/
theorem empty_credential_still_authenticates (url : String) (c : contentEntry) :
    defaultUserPass "" (fun _ => "") = ":" ∧
    mapGet (manifestRequest (defaultUserPass "" (fun _ => "")) url).header "Authorization" =
      some "Basic Og==" ∧
    mapGet (downloadRequest (defaultUserPass "" (fun _ => "")) c).header "Authorization" =
      some "Basic Og==" := by
  have h : defaultUserPass "" (fun _ => "") = ":" := by decide
  have hne : (":" : String) ≠ "" := by decide
  have hv : "Basic " ++ base64EncodeToString ":" = "Basic Og==" := by decide
  have hk : ¬ ("Authorization" : String) = "Accept" := by decide
  refine ⟨h, ?_, ?_⟩
  · rw [h]
    unfold manifestRequest authenticate
    simp only [hne, ne_eq, not_false_eq_true, if_true]
    rw [mapGet_set, hv]
    simp
  · rw [h]
    unfold downloadRequest authenticate
    simp only [hne, ne_eq, not_false_eq_true, if_true]
    rw [mapGet_set, if_neg hk, mapGet_set, hv]
    simp

end Eeprom
